import Mathlib

/-!
# SemWiki — shallow embedding and verification

This file embeds the graph-construction-and-resolution core of the SemWiki
knowledge base (`semwiki_parser.py`) and its search engine
(`semwiki_search.py`) as executable Lean definitions, and proves or refutes
the specification claims about them.

Modelling conventions:
* Python dicts that are only read through key lookup are association lists
  in insertion order (Python dicts preserve insertion order).
* Python sets used only through membership tests are duplicate-free lists.
* `str.split`, `str.join`, `str.lower`, and substring tests (`in`) are
  modelled on the character-list representation of `String`
  (`pySplit`, `pyJoin`, `pyLower`, `pyIn`); `str.lower` is modelled on
  ASCII letters, which covers every string appearing in the claims.
* Wall-clock fields (`created`, `updated` timestamps) carry no information
  relevant to any claim and are omitted from the records.
-/

namespace SemWiki

/-- Split a character list on a separator character.  Mirrors Python
`str.split(sep)` semantics: the result is never empty and splitting the
empty string yields `[[]]`. -/
def splitCh (c : Char) : List Char → List (List Char)
  | [] => [[]]
  | x :: xs =>
    match splitCh c xs with
    | [] => [[]]
    | h :: t => if x = c then [] :: h :: t else (x :: h) :: t

/-- Join character lists with a separator character (Python `sep.join`). -/
def joinCh (c : Char) : List (List Char) → List Char
  | [] => []
  | [x] => x
  | x :: y :: rest => x ++ c :: joinCh c (y :: rest)

/-- Python `s.split(c)` for a one-character separator. -/
def pySplit (c : Char) (s : String) : List String :=
  (splitCh c s.data).map (fun l => ⟨l⟩)

/-- Python `c.join(ss)` for a one-character separator. -/
def pyJoin (c : Char) (ss : List String) : String :=
  ⟨joinCh c (ss.map String.data)⟩

/-- ASCII lower-casing of a character (model of Python `str.lower`). -/
def lowerCh (c : Char) : Char :=
  if 'A' ≤ c ∧ c ≤ 'Z' then Char.ofNat (c.toNat + 32) else c

/-- Python `s.lower()` (ASCII model). -/
def pyLower (s : String) : String :=
  ⟨s.data.map lowerCh⟩

/-- Python substring test `a in b`. -/
def pyIn (a b : String) : Bool :=
  decide (a.data <:+: b.data)

/-- Python `s.count("/")`: number of `/` characters in `s`. -/
def countSlash (s : String) : Nat :=
  s.data.count '/'

/-- Python `s.split("/")[-1]`: the last path segment. -/
def lastSeg (s : String) : String :=
  (pySplit '/' s).getLastD ""

/-- First-match lookup in an association list (Python `dict` read). -/
def tget {α : Type} : List (String × α) → String → Option α
  | [], _ => none
  | (k', v) :: rest, k => if k' = k then some v else tget rest k

/-- Python `dict` assignment `d[k] = v`: replace the binding of `k` if it
exists, otherwise append a new binding (insertion order preserved). -/
def tset {α : Type} : List (String × α) → String → α → List (String × α)
  | [], k, v => [(k, v)]
  | (k', v') :: rest, k, v =>
    if k' = k then (k, v) :: rest else (k', v') :: tset rest k v

/-! ## Data model (`graph.json` / `taxonomy.json` contents) -/

/-- One node of the knowledge graph (`self.graph["nodes"][id]`).  The
`id`, `type`, `created`, `properties` and `sources` fields carry no
information used by any claim and are omitted. -/
structure NodeData where
  classification_path : String
  relations : List (String × List String)
  deriving DecidableEq, Repr

/-- One edge of the knowledge graph (`self.graph["edges"][i]`).  The
`created` timestamp is omitted. -/
structure Edge where
  id : String
  source : String
  relation : String
  target : String
  source_file : String
  deriving DecidableEq, Repr

/-- The mutable graph state used by `_add_relation`. -/
structure Graph where
  nodes : List (String × NodeData)
  edges : List Edge
  deriving DecidableEq, Repr

def emptyGraph : Graph := ⟨[], []⟩

/-- The taxonomy index (`taxonomy.json`). -/
structure Taxonomy where
  search_to_classification : List (String × String)
  classification_to_search : List (String × String)
  aliases : List (String × List String)
  deriving DecidableEq, Repr

def emptyTaxonomy : Taxonomy := ⟨[], [], []⟩

/-- The relation-inverse table `self.relation_inverses`. -/
def relation_inverses_table : List (String × String) :=
  [("is_a", "has_instance"),
   ("has_instance", "is_a"),
   ("part_of", "has_part"),
   ("has_part", "part_of"),
   ("located_in", "location_of"),
   ("location_of", "located_in"),
   ("created_by", "creator_of"),
   ("creator_of", "created_by"),
   ("precedes", "follows"),
   ("follows", "precedes"),
   ("causes", "caused_by"),
   ("caused_by", "causes"),
   ("enables", "enabled_by"),
   ("enabled_by", "enables"),
   ("regulates", "regulated_by"),
   ("regulated_by", "regulates"),
   ("offers", "offered_by"),
   ("offered_by", "offers")]

/-- `self.relation_inverses.get(rel_type)`. -/
def relation_inverses (r : String) : Option String :=
  tget relation_inverses_table r

/-! ## Cycle detector (`SemWikiParser.detect_circular_reference`) -/

/-- Adjacency of the is-a subgraph: association list from node to its list
of is-a targets.  Models the Python `defaultdict(set)`; the set of targets
is kept as a duplicate-free list in insertion order. -/
abbrev Adj := List (String × List String)

/-- `is_a_graph[node]` with the `defaultdict` empty default. -/
def adjGet (adj : Adj) (x : String) : List String :=
  (tget adj x).getD []

/-- `is_a_graph[source].add(target)`. -/
def adjAdd (adj : Adj) (s t : String) : Adj :=
  match tget adj s with
  | none => adj ++ [(s, [t])]
  | some ts => if t ∈ ts then adj else tset adj s (ts ++ [t])

/-- The is-a adjacency built from the edge list
(`for edge in self.graph["edges"]: if edge["relation"] == "is_a": ...`). -/
def isaAdj (edges : List Edge) : Adj :=
  edges.foldl (fun a e => if e.relation = "is_a" then adjAdd a e.source e.target else a) []

/-- One round of the `for neighbor in is_a_graph[node]` loop of the inner
`dfs`: run `f` (the recursive call) on each neighbour in turn, threading the
`visited` set, and propagate the first cycle found.  The outer `none`
signals fuel exhaustion of `f` (never reached with sufficient fuel). -/
def dfsRun (f : String → List String → Option (Option (List String) × List String)) :
    List String → List String → Option (Option (List String) × List String)
  | [], visited => some (none, visited)
  | n :: ns, visited =>
    match f n visited with
    | none => none
    | some (some c, v) => some (some c, v)
    | some (none, v) => dfsRun f ns v

/-- The recursive `dfs(node, path_stack)` of `detect_circular_reference`.
`stack` is the active recursion path (`path_stack`), `visited` the set of
nodes ever entered.  The extra `Nat` is recursion fuel; `none` means the
fuel ran out, which `dfs_isSome` below shows never happens at the fuel used
by `detect_circular_reference`. -/
def dfs (adj : Adj) : Nat → String → List String → List String →
    Option (Option (List String) × List String)
  | 0, _, _, _ => none
  | fuel + 1, node, stack, visited =>
    if node ∈ stack then
      -- found a cycle: `path_stack[path_stack.index(node):] + [node]`
      some (some (stack.dropWhile (fun x => x ≠ node) ++ [node]), visited)
    else if node ∈ visited then
      some (none, visited)
    else
      dfsRun (fun n v => dfs adj fuel n (stack ++ [node]) v)
        (adjGet adj node) (node :: visited)

/-- All node names mentioned by an adjacency (keys and targets); used to
bound the DFS fuel. -/
def adjNodes (adj : Adj) : List String :=
  adj.foldr (fun p acc => p.1 :: p.2 ++ acc) []

/-- `SemWikiParser.detect_circular_reference(source, target, relation)`,
reading the current edge list.  Returns the cycle path if adding the
proposed is-a edge would create a cycle, `none` if it is safe. -/
def detect_circular_reference (edges : List Edge) (source target relation : String) :
    Option (List String) :=
  if relation ≠ "is_a" then none
  else
    let adj := adjAdd (isaAdj edges) source target
    match dfs adj ((adjNodes adj).length + 1) source [] [] with
    | some (r, _) => r
    | none => none

/-! ## Graph store (`SemWikiParser._add_relation` / `_add_inverse_relation`) -/

/-- Update `relations[rel_type]`:
`if rel_type not in relations: relations[rel_type] = []` followed by
`if target not in relations[rel_type]: relations[rel_type].append(target)`. -/
def relsAdd (rels : List (String × List String)) (r t : String) :
    List (String × List String) :=
  match tget rels r with
  | none => rels ++ [(r, [t])]
  | some l => if t ∈ l then rels else tset rels r (l ++ [t])

/-- `if key in self.graph["nodes"]: ...update that node's relations...`
(no node is created when the key is absent). -/
def addNodeRelation (nodes : List (String × NodeData)) (key r t : String) :
    List (String × NodeData) :=
  match tget nodes key with
  | none => nodes
  | some nd => tset nodes key { nd with relations := relsAdd nd.relations r t }

/-- `SemWikiParser._add_inverse_relation(source, rel_type, target, source_file)`. -/
def _add_inverse_relation (g : Graph) (source rel_type target source_file : String) :
    Graph :=
  match relation_inverses rel_type with
  | none => g
  | some inverse_type =>
    let edge_id := target ++ "--" ++ inverse_type ++ "--" ++ source
    if g.edges.any (fun e => e.id = edge_id) then g
    else
      { nodes := addNodeRelation g.nodes target inverse_type source,
        edges := g.edges ++ [⟨edge_id, target, inverse_type, source, source_file⟩] }

/-- `SemWikiParser._add_relation(source, rel_type, target, source_file)`.
The cycle guard `if cycle: return` tests Python truthiness of the detector
result, which is `None` or a non-empty list (`detect_some_shape` below), so
`isSome` is faithful. -/
def _add_relation (g : Graph) (source rel_type target source_file : String) : Graph :=
  if rel_type = "is_a" ∧
      (detect_circular_reference g.edges source target "is_a").isSome then g
  else
    let edge_id := source ++ "--" ++ rel_type ++ "--" ++ target
    if g.edges.any (fun e => e.id = edge_id) then g
    else
      _add_inverse_relation
        { nodes := addNodeRelation g.nodes source rel_type target,
          edges := g.edges ++ [⟨edge_id, source, rel_type, target, source_file⟩] }
        source rel_type target source_file

/-- An operation sequence of `_add_relation` calls starting from the empty
graph: each entry is `(source, rel_type, target, source_file)`. -/
def applyOps (ops : List (String × String × String × String)) : Graph :=
  ops.foldl (fun g o => _add_relation g o.1 o.2.1 o.2.2.1 o.2.2.2) emptyGraph

/-! ## Path resolver (`SemWikiParser.resolve_reference`) -/

/-- Stable insertion step for a sort by `key` descending: place `x` in
front of the first element whose key does not exceed `key x`.  Elements
originally to the right of `x` with an equal key stay behind it, matching
the stability of Python's `sorted(..., reverse=True)`. -/
def insortDesc (key : String → Nat) (x : String) : List String → List String
  | [] => [x]
  | y :: ys => if key y ≤ key x then x :: y :: ys else y :: insortDesc key x ys

/-- `sorted(is_a_values, key=lambda x: x.count("/"), reverse=True)`:
a stable sort by slash count, descending. -/
def sortedByCountDesc (l : List String) : List String :=
  l.foldr (insortDesc countSlash) []

/-- Drop everything up to and including the first occurrence of the
pattern; models `text.split(pat, 1)[1]` under the guard `pat in text`. -/
def dropThroughPattern (pat : List Char) : List Char → List Char
  | [] => []
  | c :: cs => if pat.isPrefixOf (c :: cs) then (c :: cs).drop pat.length
               else dropThroughPattern pat cs

/-- Remove every occurrence of the pattern (Python `str.replace(pat, "")`). -/
def removePattern (pat : List Char) : List Char → List Char
  | [] => []
  | c :: cs => if pat ≠ [] ∧ pat.isPrefixOf (c :: cs) then
                 removePattern pat ((c :: cs).drop pat.length)
               else c :: removePattern pat cs
termination_by l => l.length
decreasing_by
  · simp only [List.length_drop, List.length_cons]
    have : pat.length ≠ 0 := by
      intro h0
      exact (by assumption : pat ≠ [] ∧ _).1 (List.length_eq_zero.mp h0)
    omega
  · simp [Nat.lt_succ_self]

/-- `SemWikiParser._get_context_classification`: strip everything through
`"concepts/"` and remove `".md"` from the current context path. -/
def _get_context_classification (current_context : Option String) : String :=
  match current_context with
  | none => ""
  | some ctx =>
    let rel₁ := if "concepts/".data <:+: ctx.data then
                  dropThroughPattern "concepts/".data ctx.data
                else ctx.data
    ⟨removePattern ".md".data rel₁⟩

/-- The triple returned by `resolve_reference`. -/
structure ResolveResult where
  search_path : String
  classification_path : String
  all_paths : List String
  deriving DecidableEq, Repr

/-- `SemWikiParser.resolve_reference(concept_name, is_a_values)`.  The
`is_a_values` argument is a list; the empty list models Python's
`None`/empty (both falsy).  `current_context` is the state field
`self.current_context` read by the context branch.  Returns the resolved
triple together with the updated taxonomy. -/
def resolve_reference (tax : Taxonomy) (concept_name : String)
    (is_a_values : List String) (current_context : Option String) :
    ResolveResult × Taxonomy :=
  match tget tax.search_to_classification concept_name with
  | some classification_path =>
    (⟨concept_name, classification_path, [classification_path]⟩, tax)
  | none =>
    if is_a_values ≠ [] then
      let sorted_paths := sortedByCountDesc is_a_values
      let primary_classification := sorted_paths.headD ""
      let concept_base := lastSeg concept_name
      let classification_path := primary_classification ++ "/" ++ concept_base
      let all_paths := is_a_values.map (fun p => p ++ "/" ++ concept_base)
      let tax₁ :=
        { tax with
          search_to_classification :=
            tset tax.search_to_classification concept_name classification_path,
          classification_to_search :=
            tset tax.classification_to_search classification_path concept_name }
      let tax₂ :=
        if all_paths.length > 1 then
          { tax₁ with aliases := tset tax₁.aliases concept_name all_paths.tail }
        else tax₁
      (⟨concept_name, classification_path, all_paths⟩, tax₂)
    else if (match current_context with
             | some ctx => ctx ≠ "" && ctx.data.contains '/'
             | none => false : Bool) then
      let context_path := _get_context_classification current_context
      let concept_base := lastSeg concept_name
      let classification_path := context_path ++ "/" ++ concept_base
      (⟨concept_name, classification_path, [classification_path]⟩, tax)
    else
      (⟨concept_name, concept_name, [concept_name]⟩, tax)

/-! ## Search engine (`SemWikiSearch`) -/

/-- One entry of the inverted search index.  The Python entries are dicts;
the first (concept-name) entry of each node has no `is_partial` key, which
is modelled as `partMark = none`, while the per-prefix entries carry
`partMark = some b`.  The `node` back-reference is omitted. -/
structure IndexEntry where
  search_path : String
  classification_path : String
  depth : Nat
  specificity : Nat
  partMark : Option Bool
  deriving DecidableEq, Repr

/-- The `for i, part in enumerate(parts)` loop of `build_search_index`,
starting at index `i`.  (The loop variable `partial_path` of the source is
computed but never used and is omitted.) -/
def indexPartsLoop (node_id cp : String) (depth : Nat) (total : Nat) :
    Nat → List String → List (String × IndexEntry)
  | _, [] => []
  | i, part :: rest =>
    (pyLower part, ⟨node_id, cp, depth, i + 1, some (decide (i < total - 1))⟩) ::
      indexPartsLoop node_id cp depth total (i + 1) rest

/-- The index entries contributed by one node in `build_search_index`:
first the concept-name entry, then one entry per path component. -/
def nodeIndexEntries (node_id : String) (nd : NodeData) : List (String × IndexEntry) :=
  let classification_path := nd.classification_path
  let concept_name := lastSeg classification_path
  let depth := countSlash classification_path
  let parts := pySplit '/' classification_path
  (pyLower concept_name, ⟨node_id, classification_path, depth, depth + 1, none⟩) ::
    indexPartsLoop node_id classification_path depth parts.length 0 parts

/-- `SemWikiSearch.build_search_index`, flattened: the `(term, entry)`
pairs appended to the `defaultdict(list)` index, in insertion order. -/
def build_search_index (g : Graph) : List (String × IndexEntry) :=
  g.nodes.foldl (fun acc p => acc ++ nodeIndexEntries p.1 p.2) []

/-- The per-segment match test of `SemWikiSearch.search`:
`query_lower in part.lower() or part.lower() in query_lower`
(`qLower` is the pre-lowered query). -/
def segMatches (qLower seg : String) : Bool :=
  pyIn qLower (pyLower seg) || pyIn (pyLower seg) qLower

/-- Index of the first matching segment (the `for i, part` loop with
`break`). -/
def firstMatchIdx (qLower : String) : List String → Option Nat
  | [] => none
  | p :: ps =>
    if segMatches qLower p then some 0
    else (firstMatchIdx qLower ps).map (· + 1)

/-- One search result.  The `node` back-reference and the optional
`hierarchy` enrichment are omitted (they copy other state verbatim). -/
structure SearchResult where
  search_path : String
  classification_path : String
  full_classification_path : String
  depth : Nat
  specificity : Nat
  matched_term : String
  deriving DecidableEq, Repr

/-- The match index used for a node: first matching classification
segment, else the fallback over the search-path segments reported at the
last classification index. -/
def searchMatchIdx (qLower : String) (node_id cp : String) : Option Nat :=
  let parts := pySplit '/' cp
  match firstMatchIdx qLower parts with
  | some i => some i
  | none =>
    if (pySplit '/' node_id).any (fun p => segMatches qLower p) then
      some (parts.length - 1)
    else none

/-- The main loop of `SemWikiSearch.search`: scan the nodes in insertion
order, deduplicate by truncated path, and accumulate results. -/
def searchLoop (qLower : String) :
    List (String × NodeData) → List SearchResult → List String → List SearchResult
  | [], results, _ => results
  | (node_id, nd) :: rest, results, seen =>
    let cp := nd.classification_path
    let parts := pySplit '/' cp
    match searchMatchIdx qLower node_id cp with
    | none => searchLoop qLower rest results seen
    | some i =>
      let truncated := pyJoin '/' (parts.take (i + 1))
      if truncated ∈ seen then searchLoop qLower rest results seen
      else
        searchLoop qLower rest
          (results ++ [⟨node_id, truncated, cp, i, i + 1, parts.getD i ""⟩])
          (truncated :: seen)

/-- Stable insertion step for the final result sort, by the Python key
`(-specificity, classification_path)` ascending. -/
def resultKeyLE (x y : SearchResult) : Bool :=
  y.specificity < x.specificity ||
    (y.specificity = x.specificity && decide (x.classification_path ≤ y.classification_path))

def insortResult (x : SearchResult) : List SearchResult → List SearchResult
  | [] => [x]
  | y :: ys => if resultKeyLE x y then x :: y :: ys else y :: insortResult x ys

/-- `results.sort(key=lambda x: (-x["specificity"], x["classification_path"]))`:
a stable ascending sort by that key. -/
def sortResults (l : List SearchResult) : List SearchResult :=
  l.foldr insortResult []

/-- `SemWikiSearch.search(query)` (without the optional hierarchy
enrichment, which only copies `get_parent_hierarchy` output onto results). -/
def search (g : Graph) (query : String) : List SearchResult :=
  sortResults (searchLoop (pyLower query) g.nodes [] [])

/-! ## Ancestor hierarchy (`SemWikiSearch.get_parent_hierarchy`) -/

/-- First node whose `classification_path` equals the argument
(the `for node_id, node_data in ...` search). -/
def findNodeByCp (nodes : List (String × NodeData)) (cp : String) : Option String :=
  match nodes with
  | [] => none
  | (node_id, nd) :: rest =>
    if nd.classification_path = cp then some node_id else findNodeByCp rest cp

/-- The lexical fallback when no node carries the classification path:
append each strict prefix of the path, longest first, skipping
already-visited entries. -/
def hierFallback (parts : List String) :
    Nat → List String → List String → List String
  | 0, hierarchy, _ => hierarchy
  | i + 1, hierarchy, visited =>
    let parent_path := pyJoin '/' (parts.take (i + 1))
    if parent_path ∈ visited then hierFallback parts i hierarchy visited
    else hierFallback parts i (hierarchy ++ [parent_path]) (parent_path :: visited)

/-- The `while current and depth < max_depth` loop of
`get_parent_hierarchy`; the fuel argument is `max_depth - depth`. -/
def hierLoop (nodes : List (String × NodeData)) :
    Nat → String → List String → List String → List String
  | 0, _, hierarchy, _ => hierarchy
  | fuel + 1, current, hierarchy, visited =>
    if current = "" then hierarchy
    else
      match tget nodes current with
      | none => hierarchy
      | some nd =>
        match tget nd.relations "is_a" with
        | none => hierarchy
        | some [] => hierarchy
        | some (target :: _) =>
          let target_classification :=
            match tget nodes target with
            | some tnd => tnd.classification_path
            | none => target
          if target_classification ∈ visited then
            hierLoop nodes fuel target hierarchy visited
          else
            hierLoop nodes fuel target (hierarchy ++ [target_classification])
              (target_classification :: visited)

/-- `SemWikiSearch.get_parent_hierarchy(classification_path)` together
with the updated `hierarchy_cache` (the lexical fallback returns without
caching, as in the source).  The source guards the traversal branch with
`if not search_path:` — Python truthiness — so a found node whose id is
the empty string also takes the lexical fallback. -/
def get_parent_hierarchy (g : Graph) (cache : List (String × List String))
    (classification_path : String) : List String × List (String × List String) :=
  match tget cache classification_path with
  | some cached => (cached, cache)
  | none =>
    match findNodeByCp g.nodes classification_path with
    | none =>
      let parts := pySplit '/' classification_path
      (hierFallback parts (parts.length - 1) [classification_path]
        [classification_path], cache)
    | some search_path =>
      if search_path = "" then
        let parts := pySplit '/' classification_path
        (hierFallback parts (parts.length - 1) [classification_path]
          [classification_path], cache)
      else
        let hierarchy :=
          hierLoop g.nodes 10 search_path [classification_path] [classification_path]
        (hierarchy, tset cache classification_path hierarchy)

/-- Modelled from the claim's words for comparison with `hierLoop`: a
traversal that additionally STOPS outright at an already-visited
classification path ("the traversal stopping ... or earlier at a root or
an already-visited path").  Only used to exhibit the divergence from the
source behaviour. -/
def hierLoopStopAtVisited (nodes : List (String × NodeData)) :
    Nat → String → List String → List String → List String
  | 0, _, hierarchy, _ => hierarchy
  | fuel + 1, current, hierarchy, visited =>
    if current = "" then hierarchy
    else
      match tget nodes current with
      | none => hierarchy
      | some nd =>
        match tget nd.relations "is_a" with
        | none => hierarchy
        | some [] => hierarchy
        | some (target :: _) =>
          let target_classification :=
            match tget nodes target with
            | some tnd => tnd.classification_path
            | none => target
          if target_classification ∈ visited then hierarchy
          else
            hierLoopStopAtVisited nodes fuel target
              (hierarchy ++ [target_classification])
              (target_classification :: visited)

/-! ## Specification-level notions -/

/-- One step of the is-a adjacency: `b` is a recorded is-a target of `a`. -/
def adjStep (adj : Adj) (a b : String) : Prop :=
  b ∈ adjGet adj a

instance (adj : Adj) (a b : String) : Decidable (adjStep adj a b) := by
  unfold adjStep; infer_instance

/-- Reachability in the adjacency (zero or more is-a hops). -/
def Reaches (adj : Adj) : String → String → Prop :=
  Relation.ReflTransGen (adjStep adj)

/-- A (non-empty) cycle through `v`. -/
def CycleAt (adj : Adj) (v : String) : Prop :=
  Relation.TransGen (adjStep adj) v v

/-- Some cycle is reachable from `s`. -/
def HasCycleFrom (adj : Adj) (s : String) : Prop :=
  ∃ v, Reaches adj s v ∧ CycleAt adj v

/-- The adjacency contains no cycle at all. -/
def Acyclic (adj : Adj) : Prop :=
  ∀ v, ¬ CycleAt adj v

/-- `l` is a walk along adjacency steps whose first element is `s`. -/
def ChainFrom (adj : Adj) (s : String) (l : List String) : Prop :=
  l.Chain' (adjStep adj) ∧ l.head? = some s

/-- Completeness invariant of the DFS: from any fully-explored (black)
node — visited but not on the active path — everything reachable is
already visited, off the active path, and on no cycle. -/
def BlackInv (adj : Adj) (stack visited : List String) : Prop :=
  ∀ b ∈ visited, b ∉ stack →
    ∀ w, Reaches adj b w → w ∈ visited ∧ w ∉ stack ∧ ¬ CycleAt adj w

/-- Number of nodes of `u` not yet visited; the DFS fuel measure. -/
def unvisitedCount (u visited : List String) : Nat :=
  u.countP (fun x => decide (x ∉ visited))

/-- What a successful cycle report from root `s` means: some reachable
genuine cycle exists, and the reported list is itself a closed non-trivial
walk whose repeated endpoint is reachable from `s`. -/
def SoundCycle (adj : Adj) (s : String) (c : List String) : Prop :=
  HasCycleFrom adj s ∧
    ∃ n rest, c = n :: rest ∧ rest ≠ [] ∧
      List.Chain' (adjStep adj) (n :: rest) ∧
      (n :: rest).getLastD n = n ∧ Reaches adj s n

/-- The graph-store invariant behind inverse completeness: edge ids are
pairwise distinct, and every edge whose relation has a declared inverse is
accompanied by an edge carrying the inverse's deduplication id. -/
def EdgesInv (edges : List Edge) : Prop :=
  edges.Pairwise (fun a b => a.id ≠ b.id) ∧
  ∀ e ∈ edges, ∀ inv, relation_inverses e.relation = some inv →
    ∃ e' ∈ edges, e'.id = e.target ++ "--" ++ inv ++ "--" ++ e.source

/-- The first element of maximal `key` value (used to characterise the
head of the stable descending sort in the amended claim C4). -/
def firstMaxBy (key : String → Nat) : List String → Option String
  | [] => none
  | x :: xs =>
    match firstMaxBy key xs with
    | none => some x
    | some m => if key x < key m then some m else some x

/-- A string containing no path separator. -/
def slashFree (s : String) : Prop := '/' ∉ s.data

instance (s : String) : Decidable (slashFree s) := by
  unfold slashFree; infer_instance

/-- Shape invariant of a search result: its truncated path is the join of
a non-empty list of separator-free segments whose count is recorded as the
specificity. -/
def ResultOK (r : SearchResult) : Prop :=
  ∃ ps : List String, ps ≠ [] ∧ (∀ p ∈ ps, slashFree p) ∧
    r.classification_path = pyJoin '/' ps ∧ r.specificity = ps.length

/-- Truncation invariant of a search result for the (pre-lowered) query it
was produced for: whenever the full classification path has a first
matching segment, the truncated path is exactly the prefix up to that
segment and the specificity is the prefix's segment count. -/
def MatchConsistent (qLower : String) (r : SearchResult) : Prop :=
  ∀ i, firstMatchIdx qLower (pySplit '/' r.full_classification_path) = some i →
    r.classification_path =
      pyJoin '/' ((pySplit '/' r.full_classification_path).take (i + 1)) ∧
    r.specificity = i + 1

/-! ## Association-list and splitting lemmas -/

theorem tget_tset_self {α : Type} (l : List (String × α)) (k : String) (v : α) :
    tget (tset l k v) k = some v := by
  induction l with
  | nil => simp [tset, tget]
  | cons p rest ih =>
    by_cases h : p.1 = k
    · simp [tset, h, tget]
    · simp [tset, h, tget, ih]

theorem tget_tset_ne {α : Type} (l : List (String × α)) (k k' : String) (v : α)
    (h : k' ≠ k) : tget (tset l k v) k' = tget l k' := by
  have hkk : ¬ k = k' := fun hh => h hh.symm
  induction l with
  | nil =>
    simp only [tset, tget]
    rw [if_neg hkk]
  | cons p rest ih =>
    by_cases hp : p.1 = k
    · rcases p with ⟨pk, pv⟩
      simp only at hp
      subst hp
      simp only [tset, if_pos rfl, tget]
      rw [if_neg hkk, if_neg hkk]
    · simp only [tset, hp, if_false, tget]
      by_cases hp' : p.1 = k'
      · simp [hp']
      · simp [hp', ih]

theorem tget_append {α : Type} (l₁ l₂ : List (String × α)) (k : String) :
    tget (l₁ ++ l₂) k =
      match tget l₁ k with
      | some v => some v
      | none => tget l₂ k := by
  induction l₁ with
  | nil => simp [tget]
  | cons p rest ih =>
    by_cases h : p.1 = k
    · simp [tget, h]
    · simp [tget, h, ih]

theorem splitCh_ne_nil (c : Char) (l : List Char) : splitCh c l ≠ [] := by
  cases l with
  | nil => simp [splitCh]
  | cons x xs =>
    simp only [splitCh]
    rcases h : splitCh c xs with _ | ⟨hd, tl⟩
    · simp
    · by_cases hx : x = c <;> simp [hx]

theorem splitCh_sepFree (c : Char) (l : List Char) :
    ∀ p ∈ splitCh c l, c ∉ p := by
  induction l with
  | nil => simp [splitCh]
  | cons x xs ih =>
    intro p hp
    rcases h : splitCh c xs with _ | ⟨hd, tl⟩
    · exact absurd h (splitCh_ne_nil c xs)
    · simp only [splitCh, h] at hp
      by_cases hx : x = c
      · rw [if_pos hx] at hp
        rcases List.mem_cons.mp hp with hp' | hp'
        · subst hp'; simp
        · exact ih p (h ▸ hp')
      · rw [if_neg hx] at hp
        rcases List.mem_cons.mp hp with hp' | hp'
        · subst hp'
          intro hc
          rcases List.mem_cons.mp hc with hc' | hc'
          · exact hx hc'.symm
          · exact ih hd (h ▸ List.mem_cons_self hd tl) hc'
        · exact ih p (h ▸ List.mem_cons_of_mem hd hp')

theorem splitCh_of_sepFree (c : Char) (l : List Char) (h : c ∉ l) :
    splitCh c l = [l] := by
  induction l with
  | nil => simp [splitCh]
  | cons x xs ih =>
    simp only [List.mem_cons, not_or] at h
    have hx : x ≠ c := fun hh => h.1 hh.symm
    simp only [splitCh, ih h.2, hx, if_false]

theorem splitCh_append_sep (c : Char) (a rest : List Char) (h : c ∉ a) :
    splitCh c (a ++ c :: rest) = a :: splitCh c rest := by
  induction a with
  | nil =>
    simp only [List.nil_append, splitCh]
    rcases hr : splitCh c rest with _ | ⟨hd, tl⟩
    · exact absurd hr (splitCh_ne_nil c rest)
    · simp
  | cons x xs ih =>
    simp only [List.mem_cons, not_or] at h
    have hx : x ≠ c := fun hh => h.1 hh.symm
    have hrec := ih h.2
    rcases hs : splitCh c rest with _ | ⟨hd, tl⟩
    · exact absurd hs (splitCh_ne_nil c rest)
    · rw [hs] at hrec
      simp only [List.cons_append, splitCh, List.append_eq, hrec, hx, if_false, hs]

theorem splitCh_joinCh (c : Char) (ls : List (List Char)) (hne : ls ≠ [])
    (hfree : ∀ p ∈ ls, c ∉ p) : splitCh c (joinCh c ls) = ls := by
  induction ls with
  | nil => exact absurd rfl hne
  | cons x rest ih =>
    cases rest with
    | nil => simp [joinCh, splitCh_of_sepFree c x (hfree x (by simp))]
    | cons y rest' =>
      have hx : c ∉ x := hfree x (by simp)
      have : joinCh c (x :: y :: rest') = x ++ c :: joinCh c (y :: rest') := rfl
      rw [this, splitCh_append_sep c x _ hx,
        ih (by simp) (fun p hp => hfree p (by simp [hp]))]

theorem pySplit_pyJoin (ss : List String) (hne : ss ≠ [])
    (hfree : ∀ p ∈ ss, slashFree p) :
    pySplit '/' (pyJoin '/' ss) = ss := by
  unfold pySplit pyJoin
  rw [splitCh_joinCh '/' (ss.map String.data)
    (by simpa using hne)
    (by intro p hp
        rcases List.mem_map.mp hp with ⟨s, hs, rfl⟩
        exact hfree s hs)]
  rw [List.map_map]
  have : (fun l => (⟨l⟩ : String)) ∘ String.data = id := by
    funext s; rfl
  simp [this]

theorem pySplit_sepFree (s : String) : ∀ p ∈ pySplit '/' s, slashFree p := by
  intro p hp
  unfold pySplit at hp
  rcases List.mem_map.mp hp with ⟨l, hl, rfl⟩
  exact splitCh_sepFree '/' s.data l hl

theorem pySplit_ne_nil (c : Char) (s : String) : pySplit c s ≠ [] := by
  unfold pySplit
  simp [splitCh_ne_nil]

/-! ## Adjacency lemmas -/

theorem adjGet_adjAdd (adj : Adj) (s t x : String) :
    adjGet (adjAdd adj s t) x =
      if x = s then
        (if t ∈ adjGet adj s then adjGet adj s else adjGet adj s ++ [t])
      else adjGet adj x := by
  unfold adjAdd
  rcases h : tget adj s with _ | ts
  · have hs : adjGet adj s = [] := by simp [adjGet, h]
    by_cases hx : x = s
    · subst hx
      simp only [adjGet, tget_append, h, hs, if_pos rfl]
      simp [tget]
    · simp only [adjGet, tget_append, hx, if_false]
      rcases hx' : tget adj x with _ | v
      · have : tget [(s, [t])] x = none := by
          simp only [tget]
          rw [if_neg (fun hh => hx (hh.symm))]
        simp [this]
      · simp
  · have hs : adjGet adj s = ts := by simp [adjGet, h]
    simp only [h]
    by_cases hmem : t ∈ ts
    · rw [if_pos hmem]
      by_cases hx : x = s
      · subst hx
        simp [hs, hmem]
      · simp [hx]
    · rw [if_neg hmem]
      by_cases hx : x = s
      · subst hx
        simp [adjGet, tget_tset_self, h, hmem]
      · simp [adjGet, tget_tset_ne adj s x _ hx, hx]

theorem adjStep_adjAdd (adj : Adj) (s t x y : String) :
    adjStep (adjAdd adj s t) x y ↔ adjStep adj x y ∨ (x = s ∧ y = t) := by
  unfold adjStep
  rw [adjGet_adjAdd]
  by_cases hx : x = s
  · rw [← hx, if_pos rfl]
    by_cases hmem : t ∈ adjGet adj x
    · rw [if_pos hmem]
      constructor
      · exact fun h => Or.inl h
      · rintro (h | ⟨-, rfl⟩)
        · exact h
        · exact hmem
    · rw [if_neg hmem, List.mem_append, List.mem_singleton]
      constructor
      · rintro (h | rfl)
        · exact Or.inl h
        · exact Or.inr ⟨rfl, rfl⟩
      · rintro (h | ⟨-, rfl⟩)
        · exact Or.inl h
        · exact Or.inr rfl
  · rw [if_neg hx]
    constructor
    · exact fun h => Or.inl h
    · rintro (h | ⟨hh, -⟩)
      · exact h
      · exact absurd hh hx

theorem transGen_union_cases {α : Type} {R R' : α → α → Prop} {s t : α}
    (hR : ∀ x y, R' x y ↔ R x y ∨ (x = s ∧ y = t)) :
    ∀ {a b : α}, Relation.TransGen R' a b →
      Relation.TransGen R a b ∨
        (Relation.ReflTransGen R' a s ∧ Relation.ReflTransGen R' t b) := by
  intro a b h
  induction h with
  | single h1 =>
    rcases (hR _ _).mp h1 with h1 | ⟨rfl, rfl⟩
    · exact Or.inl (Relation.TransGen.single h1)
    · exact Or.inr ⟨Relation.ReflTransGen.refl, Relation.ReflTransGen.refl⟩
  | tail h1 h2 ih =>
    rcases (hR _ _).mp h2 with h2' | ⟨rfl, rfl⟩
    · rcases ih with ih | ⟨has, htb⟩
      · exact Or.inl (ih.tail h2')
      · exact Or.inr ⟨has, htb.tail ((hR _ _).mpr (Or.inl h2'))⟩
    · exact Or.inr ⟨h1.to_reflTransGen, Relation.ReflTransGen.refl⟩

/-- Adding one edge to an acyclic adjacency keeps it acyclic provided no
cycle is reachable from the new edge's source afterwards. -/
theorem acyclic_adjAdd (adj : Adj) (s t : String)
    (hacy : Acyclic adj) (hnc : ¬ HasCycleFrom (adjAdd adj s t) s) :
    Acyclic (adjAdd adj s t) := by
  intro v hv
  have hR := adjStep_adjAdd adj s t
  rcases transGen_union_cases hR hv with h | ⟨hvs, htv⟩
  · exact hacy v h
  · have hst : adjStep (adjAdd adj s t) s t := (hR s t).mpr (Or.inr ⟨rfl, rfl⟩)
    have hcs : CycleAt (adjAdd adj s t) s :=
      Relation.TransGen.head' hst (htv.trans hvs)
    exact hnc ⟨s, Relation.ReflTransGen.refl, hcs⟩

/-! ## Walk and chain lemmas -/

theorem chain'_cons_reaches {R : String → String → Prop} :
    ∀ (l : List String) (a x : String), List.Chain' R (a :: l) → x ∈ a :: l →
      Relation.ReflTransGen R a x := by
  intro l
  induction l with
  | nil =>
    intro a x _ hx
    rcases List.mem_singleton.mp hx with rfl
    exact Relation.ReflTransGen.refl
  | cons b l' ih =>
    intro a x hc hx
    rcases List.mem_cons.mp hx with rfl | hx'
    · exact Relation.ReflTransGen.refl
    · have hab : R a b := (List.chain'_cons.mp hc).1
      have : Relation.ReflTransGen R b x :=
        ih b x (List.chain'_cons.mp hc).2 hx'
      exact Relation.ReflTransGen.head hab this

theorem getLastD_cons_eq (a d : String) (l : List String) :
    (a :: l).getLastD d = l.getLastD a := by
  cases l <;> simp [List.getLastD]

theorem getLastD_mem_cons (a d : String) (l : List String) :
    (a :: l).getLastD d ∈ a :: l := by
  induction l generalizing a d with
  | nil => simp [List.getLastD]
  | cons b l' ih =>
    rw [getLastD_cons_eq]
    exact List.mem_cons_of_mem a (ih b a)

theorem chain'_closed_cycleAt {R : String → String → Prop} (a : String)
    (l : List String) (hl : l ≠ []) (hc : List.Chain' R (a :: l))
    (hlast : (a :: l).getLastD a = a) : Relation.TransGen R a a := by
  cases l with
  | nil => exact absurd rfl hl
  | cons b l' =>
    have hab : R a b := (List.chain'_cons.mp hc).1
    have hb : Relation.ReflTransGen R b ((b :: l').getLastD a) :=
      chain'_cons_reaches l' b _ (List.chain'_cons.mp hc).2 (getLastD_mem_cons b a l')
    have heq : (b :: l').getLastD a = a := by
      rw [← getLastD_cons_eq a a (b :: l')]
      exact hlast
    exact Relation.TransGen.head' hab (heq ▸ hb)

theorem dropWhile_ne_eq_cons (x : String) (l : List String) (h : x ∈ l) :
    ∃ l', l.dropWhile (fun y => y ≠ x) = x :: l' := by
  induction l with
  | nil => simp at h
  | cons a l ih =>
    by_cases ha : a = x
    · subst ha
      exact ⟨l, by simp [List.dropWhile_cons]⟩
    · have hx : x ∈ l := by
        rcases List.mem_cons.mp h with rfl | h'
        · exact absurd rfl ha
        · exact h'
      rcases ih hx with ⟨l', hl'⟩
      refine ⟨l', ?_⟩
      rw [List.dropWhile_cons, if_pos (by simp [ha]), hl']

theorem getLastD_append_singleton (l : List String) (y d : String) :
    (l ++ [y]).getLastD d = y := by
  induction l generalizing d with
  | nil => simp [List.getLastD]
  | cons a l ih =>
    rw [List.cons_append, getLastD_cons_eq]
    exact ih a

theorem head?_append_left {l l' : List String} {a : String}
    (h : l.head? = some a) : (l ++ l').head? = some a := by
  cases l with
  | nil => simp at h
  | cons x xs => simpa using h

theorem chainFrom_mem_reaches {adj : Adj} {s : String} {l : List String}
    (hc : ChainFrom adj s l) {x : String} (hx : x ∈ l) : Reaches adj s x := by
  rcases hc with ⟨hch, hhd⟩
  cases l with
  | nil => simp at hx
  | cons a l' =>
    have ha : a = s := by simpa using hhd
    exact ha ▸ chain'_cons_reaches l' a x hch hx

/-! ## DFS lemmas -/

theorem dfs_zero (adj : Adj) (node : String) (stack visited : List String) :
    dfs adj 0 node stack visited = none := rfl

theorem dfs_succ (adj : Adj) (fuel : Nat) (node : String)
    (stack visited : List String) :
    dfs adj (fuel + 1) node stack visited =
      if node ∈ stack then
        some (some (stack.dropWhile (fun x => x ≠ node) ++ [node]), visited)
      else if node ∈ visited then
        some (none, visited)
      else
        dfsRun (fun n v => dfs adj fuel n (stack ++ [node]) v)
          (adjGet adj node) (node :: visited) := rfl

theorem dfsRun_mono {f : String → List String → Option (Option (List String) × List String)}
    (hf : ∀ n v r v', f n v = some (r, v') → v ⊆ v') :
    ∀ (ns : List String) (v : List String) (r : Option (List String))
      (v' : List String), dfsRun f ns v = some (r, v') → v ⊆ v' := by
  intro ns
  induction ns with
  | nil =>
    intro v r v' h
    simp only [dfsRun, Option.some.injEq, Prod.mk.injEq] at h
    rcases h with ⟨-, rfl⟩
    exact fun x hx => hx
  | cons n ns ih =>
    intro v r v' h
    rcases h1 : f n v with _ | ⟨r1, v1⟩
    · simp only [dfsRun, h1] at h
      exact Option.noConfusion h
    · rcases r1 with _ | c
      · simp only [dfsRun, h1] at h
        exact fun x hx => ih v1 r v' h (hf n v none v1 h1 hx)
      · simp only [dfsRun, h1, Option.some.injEq, Prod.mk.injEq] at h
        rcases h with ⟨-, h2⟩
        subst h2
        exact hf n v (some c) _ h1

theorem dfs_mono (adj : Adj) :
    ∀ (fuel : Nat) (node : String) (stack visited : List String)
      (r : Option (List String)) (v' : List String),
      dfs adj fuel node stack visited = some (r, v') → visited ⊆ v' := by
  intro fuel
  induction fuel with
  | zero => intro node stack visited r v' h; simp [dfs_zero] at h
  | succ fuel ih =>
    intro node stack visited r v' h
    rw [dfs_succ] at h
    by_cases h1 : node ∈ stack
    · rw [if_pos h1] at h
      simp only [Option.some.injEq, Prod.mk.injEq] at h
      rcases h with ⟨-, rfl⟩
      exact fun x hx => hx
    · rw [if_neg h1] at h
      by_cases h2 : node ∈ visited
      · rw [if_pos h2] at h
        simp only [Option.some.injEq, Prod.mk.injEq] at h
        rcases h with ⟨-, rfl⟩
        exact fun x hx => hx
      · rw [if_neg h2] at h
        have hrun := dfsRun_mono
          (fun n v r2 v2 hh => ih n (stack ++ [node]) v r2 v2 hh)
          (adjGet adj node) (node :: visited) r v' h
        exact fun x hx => hrun (List.mem_cons_of_mem node hx)

theorem dfs_none_not_stack (adj : Adj) (fuel : Nat) (node : String)
    (stack visited v' : List String)
    (h : dfs adj fuel node stack visited = some (none, v')) : node ∉ stack := by
  intro hmem
  cases fuel with
  | zero => simp [dfs_zero] at h
  | succ fuel =>
    rw [dfs_succ, if_pos hmem] at h
    simp at h

theorem unvisited_le_of_subset (U : List String) {v v' : List String}
    (h : v ⊆ v') : unvisitedCount U v' ≤ unvisitedCount U v := by
  induction U with
  | nil => simp [unvisitedCount]
  | cons a U ih =>
    unfold unvisitedCount at *
    rw [List.countP_cons, List.countP_cons]
    by_cases ha : a ∈ v
    · have ha' : a ∈ v' := h ha
      simp only [ha, ha', not_true, decide_False, if_neg (Bool.false_ne_true),
        Nat.add_zero]
      exact ih
    · by_cases ha' : a ∈ v'
      · simp only [ha, ha', not_true, not_false_iff, decide_False, decide_True,
          if_neg (Bool.false_ne_true), if_pos rfl, if_true, Nat.add_zero]
        omega
      · simp only [ha, ha', not_false_iff, decide_True, if_pos rfl, if_true]
        omega

theorem unvisited_strict (U : List String) (vis : List String) (x : String)
    (hxU : x ∈ U) (hxv : x ∉ vis) :
    unvisitedCount U (x :: vis) < unvisitedCount U vis := by
  induction U with
  | nil => simp at hxU
  | cons a U ih =>
    unfold unvisitedCount at *
    rw [List.countP_cons, List.countP_cons]
    have hle : U.countP (fun y => decide (y ∉ x :: vis)) ≤
        U.countP (fun y => decide (y ∉ vis)) := by
      have := @unvisited_le_of_subset U vis (x :: vis)
        (fun y hy => List.mem_cons_of_mem x hy)
      unfold unvisitedCount at this
      exact this
    by_cases hax : a = x
    · subst hax
      have h1 : a ∈ a :: vis := List.mem_cons_self a vis
      simp only [h1, hxv, not_true, not_false_iff, decide_False, decide_True,
        if_neg (Bool.false_ne_true), if_pos rfl, if_true, Nat.add_zero]
      omega
    · have hxU' : x ∈ U := by
        rcases List.mem_cons.mp hxU with rfl | hh
        · exact absurd rfl hax
        · exact hh
      have hmemiff : (a ∈ x :: vis) ↔ (a ∈ vis) := by
        constructor
        · intro hmem
          rcases List.mem_cons.mp hmem with rfl | hh
          · exact absurd rfl hax
          · exact hh
        · exact List.mem_cons_of_mem x
      have hstrict := ih hxU'
      by_cases hav : a ∈ vis
      · simp only [hmemiff.mpr hav, hav, not_true, decide_False,
          if_neg (Bool.false_ne_true), Nat.add_zero]
        omega
      · have h1 : a ∉ x :: vis := fun hh => hav (hmemiff.mp hh)
        simp only [h1, hav, not_false_iff, decide_True, if_pos rfl, if_true]
        omega

theorem dfsRun_isSome {f : String → List String → Option (Option (List String) × List String)}
    {U : List String} {fuel : Nat}
    (hmono : ∀ n v r v', f n v = some (r, v') → v ⊆ v')
    (hsome : ∀ n v, n ∈ U → unvisitedCount U v < fuel → (f n v).isSome) :
    ∀ (ns : List String) (v : List String), (∀ n ∈ ns, n ∈ U) →
      unvisitedCount U v < fuel → (dfsRun f ns v).isSome := by
  intro ns
  induction ns with
  | nil => intro v _ _; simp [dfsRun]
  | cons n ns ih =>
    intro v hns hlt
    have h1 : (f n v).isSome := hsome n v (hns n (List.mem_cons_self n ns)) hlt
    rcases hfv : f n v with _ | ⟨r1, v1⟩
    · rw [hfv] at h1; simp at h1
    · rcases r1 with _ | c
      · have hsub : v ⊆ v1 := hmono n v none v1 hfv
        have hle : unvisitedCount U v1 ≤ unvisitedCount U v :=
          unvisited_le_of_subset U hsub
        have := ih v1 (fun m hm => hns m (List.mem_cons_of_mem n hm))
          (Nat.lt_of_le_of_lt hle hlt)
        simpa [dfsRun, hfv] using this
      · simp [dfsRun, hfv]

theorem dfs_isSome (adj : Adj) (U : List String)
    (hcl : ∀ x y, y ∈ adjGet adj x → y ∈ U) :
    ∀ (fuel : Nat) (node : String) (stack visited : List String),
      node ∈ U → unvisitedCount U visited < fuel →
      (dfs adj fuel node stack visited).isSome := by
  intro fuel
  induction fuel with
  | zero => intro node stack visited _ hlt; omega
  | succ fuel ih =>
    intro node stack visited hU hlt
    rw [dfs_succ]
    by_cases h1 : node ∈ stack
    · simp [h1]
    · rw [if_neg h1]
      by_cases h2 : node ∈ visited
      · simp [h2]
      · rw [if_neg h2]
        have hlt' : unvisitedCount U (node :: visited) < fuel := by
          have := unvisited_strict U visited node hU h2
          omega
        exact dfsRun_isSome
          (fun n v r v' hh => dfs_mono adj fuel n (stack ++ [node]) v r v' hh)
          (fun n v hn hb => ih n (stack ++ [node]) v hn hb)
          (adjGet adj node) (node :: visited)
          (fun n hn => hcl node n hn) hlt'

/-! ## DFS completeness: a run reporting no cycle leaves nothing reachable
from its root on a cycle. -/

theorem dfsRun_none_inv (adj : Adj)
    {f : String → List String → Option (Option (List String) × List String)}
    {stack' : List String}
    (hf : ∀ n v v'', f n v = some (none, v'') → BlackInv adj stack' v →
      v ⊆ v'' ∧ n ∈ v'' ∧ n ∉ stack' ∧ BlackInv adj stack' v'') :
    ∀ (ns : List String) (v v' : List String),
      dfsRun f ns v = some (none, v') → BlackInv adj stack' v →
      v ⊆ v' ∧ (∀ n ∈ ns, n ∈ v' ∧ n ∉ stack') ∧ BlackInv adj stack' v' := by
  intro ns
  induction ns with
  | nil =>
    intro v v' h hinv
    simp only [dfsRun, Option.some.injEq, Prod.mk.injEq] at h
    rcases h with ⟨-, rfl⟩
    exact ⟨fun x hx => hx, by simp, hinv⟩
  | cons n ns ih =>
    intro v v' h hinv
    rcases h1 : f n v with _ | ⟨r1, v1⟩
    · simp only [dfsRun, h1] at h
      exact Option.noConfusion h
    · rcases r1 with _ | c
      · simp only [dfsRun, h1] at h
        rcases hf n v v1 h1 hinv with ⟨hsub1, hn1, hnst, hinv1⟩
        rcases ih v1 v' h hinv1 with ⟨hsub2, hns, hinv'⟩
        refine ⟨fun x hx => hsub2 (hsub1 hx), ?_, hinv'⟩
        intro m hm
        rcases List.mem_cons.mp hm with rfl | hm'
        · exact ⟨hsub2 hn1, hnst⟩
        · exact hns m hm'
      · simp only [dfsRun, h1, Option.some.injEq, Prod.mk.injEq] at h
        exact absurd h.1.symm (by simp)

theorem dfs_none_inv (adj : Adj) :
    ∀ (fuel : Nat) (node : String) (stack visited v' : List String),
      dfs adj fuel node stack visited = some (none, v') →
      BlackInv adj stack visited →
      visited ⊆ v' ∧ node ∈ v' ∧ BlackInv adj stack v' := by
  intro fuel
  induction fuel with
  | zero => intro node stack visited v' h _; simp [dfs_zero] at h
  | succ fuel ih =>
    intro node stack visited v' h hinv
    rw [dfs_succ] at h
    by_cases h1 : node ∈ stack
    · rw [if_pos h1] at h
      simp only [Option.some.injEq, Prod.mk.injEq] at h
      exact absurd h.1 (by simp)
    · rw [if_neg h1] at h
      by_cases h2 : node ∈ visited
      · rw [if_pos h2] at h
        simp only [Option.some.injEq, Prod.mk.injEq] at h
        rcases h with ⟨-, rfl⟩
        exact ⟨fun x hx => hx, h2, hinv⟩
      · rw [if_neg h2] at h
        have hinv0 : BlackInv adj (stack ++ [node]) (node :: visited) := by
          intro b hb hbst w hw
          rcases List.mem_cons.mp hb with rfl | hb'
          · exact absurd (by simp : b ∈ stack ++ [b]) hbst
          · have hbs : b ∉ stack := fun hh => hbst (by simp [hh])
            rcases hinv b hb' hbs w hw with ⟨hw1, hw2, hw3⟩
            have hwn : w ≠ node := fun hh => h2 (hh ▸ hw1)
            exact ⟨List.mem_cons_of_mem node hw1, by simp [hw2, hwn], hw3⟩
        have hfprop : ∀ n v v'',
            dfs adj fuel n (stack ++ [node]) v = some (none, v'') →
            BlackInv adj (stack ++ [node]) v →
            v ⊆ v'' ∧ n ∈ v'' ∧ n ∉ stack ++ [node] ∧
              BlackInv adj (stack ++ [node]) v'' := by
          intro n v v'' hh hinvv
          rcases ih n (stack ++ [node]) v v'' hh hinvv with ⟨ha, hb, hc⟩
          exact ⟨ha, hb, dfs_none_not_stack adj fuel n _ v v'' hh, hc⟩
        rcases dfsRun_none_inv adj hfprop (adjGet adj node) (node :: visited) v'
            h hinv0 with ⟨hsub, hns, hinv'⟩
        have hnodev' : node ∈ v' := hsub (List.mem_cons_self node visited)
        refine ⟨fun x hx => hsub (List.mem_cons_of_mem node hx), hnodev', ?_⟩
        intro b hb hbst w hw
        by_cases hbn : b = node
        · subst hbn
          rcases hw.cases_head with rfl | ⟨cnext, hstep, hrest⟩
          · refine ⟨hnodev', h1, ?_⟩
            intro hcyc
            rcases Relation.TransGen.head'_iff.mp hcyc with ⟨cnext, hstep, hrest⟩
            have hcn : cnext ∈ v' ∧ cnext ∉ stack ++ [b] := hns cnext hstep
            rcases hinv' cnext hcn.1 hcn.2 b hrest with ⟨-, hbad, -⟩
            exact hbad (by simp)
          · have hcn : cnext ∈ v' ∧ cnext ∉ stack ++ [b] := hns cnext hstep
            rcases hinv' cnext hcn.1 hcn.2 w hrest with ⟨hw1, hw2, hw3⟩
            exact ⟨hw1, fun hh => hw2 (by simp [hh]), hw3⟩
        · have hbst' : b ∉ stack ++ [node] := by simp [hbst, hbn]
          rcases hinv' b hb hbst' w hw with ⟨hw1, hw2, hw3⟩
          exact ⟨hw1, fun hh => hw2 (by simp [hh]), hw3⟩

/-! ## DFS soundness: a reported cycle is a genuine closed walk in the
adjacency, reachable from the DFS root. -/

theorem dfsRun_some_sound (adj : Adj)
    {f : String → List String → Option (Option (List String) × List String)}
    {s : String} {c : List String} {v' : List String} :
    ∀ (ns : List String),
    (∀ n v₂, n ∈ ns → f n v₂ = some (some c, v') → SoundCycle adj s c) →
    ∀ (v : List String),
      dfsRun f ns v = some (some c, v') → SoundCycle adj s c := by
  intro ns
  induction ns with
  | nil =>
    intro _ v h
    simp only [dfsRun, Option.some.injEq, Prod.mk.injEq] at h
    exact absurd h.1.symm (by simp)
  | cons n ns ih =>
    intro hf v h
    rcases h1 : f n v with _ | ⟨r1, v1⟩
    · simp only [dfsRun, h1] at h
      exact Option.noConfusion h
    · rcases r1 with _ | c1
      · simp only [dfsRun, h1] at h
        exact ih (fun m v₂ hm hh => hf m v₂ (List.mem_cons_of_mem n hm) hh) v1 h
      · simp only [dfsRun, h1, Option.some.injEq, Prod.mk.injEq] at h
        rcases h with ⟨hc, hv⟩
        rcases hc with rfl
        exact hf n v (List.mem_cons_self n ns) (by rw [h1, hv])

theorem dfs_some_sound (adj : Adj) (s : String) :
    ∀ (fuel : Nat) (node : String) (stack visited : List String)
      (c : List String) (v' : List String),
      dfs adj fuel node stack visited = some (some c, v') →
      ChainFrom adj s (stack ++ [node]) → SoundCycle adj s c := by
  intro fuel
  induction fuel with
  | zero => intro node stack visited c v' h _; simp [dfs_zero] at h
  | succ fuel ih =>
    intro node stack visited c v' h hcf
    rw [dfs_succ] at h
    by_cases h1 : node ∈ stack
    · rw [if_pos h1] at h
      simp only [Option.some.injEq, Prod.mk.injEq] at h
      rcases h with ⟨hc, -⟩
      rcases hc with rfl
      rcases dropWhile_ne_eq_cons node stack h1 with ⟨d', hd'⟩
      have hsuffix : List.dropWhile (fun y => y ≠ node) stack <:+ stack :=
        List.dropWhile_suffix (fun y => y ≠ node)
      rcases hsuffix with ⟨t₀, ht₀⟩
      rw [hd'] at ht₀
      rw [hd']
      have hsplit : stack ++ [node] = t₀ ++ (node :: (d' ++ [node])) := by
        rw [← ht₀]
        simp
      have hch : List.Chain' (adjStep adj) (node :: (d' ++ [node])) := by
        have hfull := hcf.1
        rw [hsplit] at hfull
        exact (List.chain'_append.mp hfull).2.1
      have hlast : (node :: (d' ++ [node])).getLastD node = node := by
        rw [getLastD_cons_eq]
        exact getLastD_append_singleton d' node node
      have hreach : Reaches adj s node :=
        chainFrom_mem_reaches hcf (by simp)
      have hcyc : CycleAt adj node :=
        chain'_closed_cycleAt node (d' ++ [node]) (by simp) hch hlast
      exact ⟨⟨node, hreach, hcyc⟩, node, d' ++ [node], by simp, by simp,
        hch, hlast, hreach⟩
    · rw [if_neg h1] at h
      by_cases h2 : node ∈ visited
      · rw [if_pos h2] at h
        simp only [Option.some.injEq, Prod.mk.injEq] at h
        exact absurd h.1.symm (by simp)
      · rw [if_neg h2] at h
        refine dfsRun_some_sound adj (adjGet adj node) ?_ (node :: visited) h
        intro n v₂ hn hh
        refine ih n (stack ++ [node]) v₂ _ _ hh ?_
        constructor
        · rw [List.chain'_append]
          refine ⟨hcf.1, List.chain'_singleton n, ?_⟩
          intro x hx y hy
          have hx' : x = node := by
            rw [List.getLast?_concat] at hx
            exact (by simpa using hx : node = x).symm
          have hy' : y = n := (by simpa using hy : n = y).symm
          subst hx'; subst hy'
          exact hn
        · exact head?_append_left hcf.2

/-! ## Detector-level lemmas -/

theorem tget_mem {α : Type} {l : List (String × α)} {k : String} {v : α}
    (h : tget l k = some v) : (k, v) ∈ l := by
  induction l with
  | nil => simp [tget] at h
  | cons p rest ih =>
    rcases p with ⟨k', v'⟩
    by_cases hk : k' = k
    · subst hk
      simp only [tget, eq_self_iff_true, if_true, Option.some.injEq] at h
      subst h
      exact List.mem_cons_self _ _
    · simp only [tget, hk, if_false] at h
      exact List.mem_cons_of_mem _ (ih h)

theorem mem_adjNodes_of_mem {adj : Adj} {k : String} {vs : List String}
    (h : (k, vs) ∈ adj) : k ∈ adjNodes adj ∧ ∀ y ∈ vs, y ∈ adjNodes adj := by
  induction adj with
  | nil => simp at h
  | cons p rest ih =>
    have hcons : adjNodes (p :: rest) = p.1 :: (p.2 ++ adjNodes rest) := rfl
    rcases List.mem_cons.mp h with rfl | h'
    · constructor
      · rw [hcons]; exact List.mem_cons_self _ _
      · intro y hy
        rw [hcons]
        exact List.mem_cons_of_mem _ (List.mem_append_left _ hy)
    · rcases ih h' with ⟨h1, h2⟩
      constructor
      · rw [hcons]; exact List.mem_cons_of_mem _ (List.mem_append_right _ h1)
      · intro y hy
        rw [hcons]
        exact List.mem_cons_of_mem _ (List.mem_append_right _ (h2 y hy))

theorem adjGet_mem_adjNodes {adj : Adj} {x y : String}
    (hy : y ∈ adjGet adj x) : y ∈ adjNodes adj := by
  unfold adjGet at hy
  rcases h : tget adj x with _ | ts
  · rw [h] at hy; simp at hy
  · rw [h] at hy
    exact (mem_adjNodes_of_mem (tget_mem h)).2 y hy

theorem key_mem_adjNodes {adj : Adj} {x : String} {ts : List String}
    (h : tget adj x = some ts) : x ∈ adjNodes adj :=
  (mem_adjNodes_of_mem (tget_mem h)).1

theorem mem_adjGet_adjAdd_self (adj : Adj) (s t : String) :
    t ∈ adjGet (adjAdd adj s t) s := by
  rw [adjGet_adjAdd, if_pos rfl]
  by_cases hmem : t ∈ adjGet adj s
  · rw [if_pos hmem]; exact hmem
  · rw [if_neg hmem]; simp

theorem source_mem_adjNodes_adjAdd (adj : Adj) (s t : String) :
    s ∈ adjNodes (adjAdd adj s t) := by
  have hmem := mem_adjGet_adjAdd_self adj s t
  unfold adjGet at hmem
  rcases h : tget (adjAdd adj s t) s with _ | ts
  · rw [h] at hmem; simp at hmem
  · exact key_mem_adjNodes h

theorem unvisited_nil (U : List String) : unvisitedCount U [] = U.length := by
  unfold unvisitedCount
  induction U with
  | nil => simp
  | cons a U ih => rw [List.countP_cons]; simp [ih]

theorem detect_dfs_isSome (edges : List Edge) (s t : String) :
    (dfs (adjAdd (isaAdj edges) s t)
      ((adjNodes (adjAdd (isaAdj edges) s t)).length + 1) s [] []).isSome := by
  apply dfs_isSome (adjAdd (isaAdj edges) s t)
    (adjNodes (adjAdd (isaAdj edges) s t))
    (fun x y hy => adjGet_mem_adjNodes hy)
  · exact source_mem_adjNodes_adjAdd (isaAdj edges) s t
  · rw [unvisited_nil]; omega

theorem detect_eq_dfs (edges : List Edge) (s t : String) :
    ∃ r v', dfs (adjAdd (isaAdj edges) s t)
        ((adjNodes (adjAdd (isaAdj edges) s t)).length + 1) s [] [] = some (r, v') ∧
      detect_circular_reference edges s t "is_a" = r := by
  rcases Option.isSome_iff_exists.mp (detect_dfs_isSome edges s t) with ⟨⟨r, v'⟩, hr⟩
  refine ⟨r, v', hr, ?_⟩
  simp only [detect_circular_reference, ne_eq, not_true_eq_false, if_false, hr]

theorem detect_none_no_cycle (edges : List Edge) (s t : String)
    (h : detect_circular_reference edges s t "is_a" = none) :
    ¬ HasCycleFrom (adjAdd (isaAdj edges) s t) s := by
  rcases detect_eq_dfs edges s t with ⟨r, v', hdfs, hdet⟩
  rw [h] at hdet
  subst hdet
  have hbase : BlackInv (adjAdd (isaAdj edges) s t) [] [] := by
    intro b hb
    simp at hb
  rcases dfs_none_inv (adjAdd (isaAdj edges) s t) _ s [] [] v' hdfs hbase with
    ⟨-, hs, hinv⟩
  rintro ⟨v, hreach, hcyc⟩
  rcases hinv s hs (by simp) v hreach with ⟨-, -, hnc⟩
  exact hnc hcyc

theorem detect_some_sound (edges : List Edge) (s t : String) (c : List String)
    (h : detect_circular_reference edges s t "is_a" = some c) :
    SoundCycle (adjAdd (isaAdj edges) s t) s c := by
  rcases detect_eq_dfs edges s t with ⟨r, v', hdfs, hdet⟩
  rw [h] at hdet
  subst hdet
  refine dfs_some_sound (adjAdd (isaAdj edges) s t) s _ s [] [] c v' hdfs ?_
  exact ⟨by simp, by simp⟩

theorem detect_not_isa (edges : List Edge) (s t rel : String)
    (h : rel ≠ "is_a") : detect_circular_reference edges s t rel = none := by
  simp [detect_circular_reference, h]

/-! ## Relation-table lemmas -/

theorem inverse_symm {r i : String} (h : relation_inverses r = some i) :
    relation_inverses i = some r := by
  have hmem := tget_mem h
  have hall : ∀ p ∈ relation_inverses_table, relation_inverses p.2 = some p.1 := by
    decide
  exact hall (r, i) hmem

theorem inverse_eq_isa {r : String} (h : relation_inverses r = some "is_a") :
    r = "has_instance" := by
  have hmem := tget_mem h
  simp only [relation_inverses_table, List.mem_cons, List.not_mem_nil,
    or_false, Prod.mk.injEq] at hmem
  simpa using hmem

theorem no_self_inverse {r i : String} (h : relation_inverses r = some i) :
    i ≠ r := by
  have hmem := tget_mem h
  have hall : ∀ p ∈ relation_inverses_table, p.2 ≠ p.1 := by
    decide
  exact hall (r, i) hmem

/-! ## Graph-store lemmas -/

theorem isaAdj_append_isa (es : List Edge) (e : Edge) (h : e.relation = "is_a") :
    isaAdj (es ++ [e]) = adjAdd (isaAdj es) e.source e.target := by
  unfold isaAdj
  rw [List.foldl_append]
  simp [h]

theorem isaAdj_append_not_isa (es : List Edge) (e : Edge)
    (h : ¬ e.relation = "is_a") : isaAdj (es ++ [e]) = isaAdj es := by
  unfold isaAdj
  rw [List.foldl_append]
  simp [h]

/-- The three possible edge-list outcomes of `_add_relation`: unchanged,
direct edge only, or direct edge plus inverse edge; any outcome that
appends passed the cycle guard. -/
theorem addRel_edges_cases (g : Graph) (s rel t f : String) :
    (_add_relation g s rel t f).edges = g.edges ∨
    (¬ (rel = "is_a" ∧ (detect_circular_reference g.edges s t "is_a").isSome) ∧
      ((_add_relation g s rel t f).edges =
          g.edges ++ [⟨s ++ "--" ++ rel ++ "--" ++ t, s, rel, t, f⟩] ∨
        ∃ inv, relation_inverses rel = some inv ∧
          (_add_relation g s rel t f).edges =
            g.edges ++ [⟨s ++ "--" ++ rel ++ "--" ++ t, s, rel, t, f⟩] ++
              [⟨t ++ "--" ++ inv ++ "--" ++ s, t, inv, s, f⟩])) := by
  unfold _add_relation
  dsimp only
  split
  · left; rfl
  · rename_i hguard
    split
    · left; rfl
    · right
      refine ⟨hguard, ?_⟩
      unfold _add_inverse_relation
      dsimp only
      split
      · left; rfl
      · rename_i inv hinv
        split
        · left; rfl
        · right
          exact ⟨inv, hinv, rfl⟩

theorem acyclic_nil : Acyclic ([] : Adj) := by
  intro v h
  rcases Relation.TransGen.head'_iff.mp h with ⟨c, hc, -⟩
  simp [adjStep, adjGet, tget] at hc

theorem addRel_preserves_acyclic (g : Graph) (s rel t f : String)
    (hrel : rel ≠ "has_instance") (hacy : Acyclic (isaAdj g.edges)) :
    Acyclic (isaAdj (_add_relation g s rel t f).edges) := by
  rcases addRel_edges_cases g s rel t f with heq | ⟨hguard, hcase⟩
  · rw [heq]; exact hacy
  · by_cases hisa : rel = "is_a"
    · subst hisa
      have hdet : detect_circular_reference g.edges s t "is_a" = none := by
        rcases hd : detect_circular_reference g.edges s t "is_a" with _ | c
        · rfl
        · exact absurd ⟨rfl, by rw [hd]; rfl⟩ hguard
      have hnew : Acyclic (adjAdd (isaAdj g.edges) s t) :=
        acyclic_adjAdd _ s t hacy (detect_none_no_cycle g.edges s t hdet)
      rcases hcase with h1 | ⟨inv, hinv, h2⟩
      · rw [h1, isaAdj_append_isa _ _ rfl]
        exact hnew
      · have hinveq : inv = "has_instance" := by
          have hh : relation_inverses "is_a" = some "has_instance" := rfl
          rw [hh] at hinv
          exact (Option.some.inj hinv).symm
        subst hinveq
        rw [h2, isaAdj_append_not_isa _ _ (by simp), isaAdj_append_isa _ _ rfl]
        exact hnew
    · rcases hcase with h1 | ⟨inv, hinv, h2⟩
      · rw [h1, isaAdj_append_not_isa _ _ hisa]
        exact hacy
      · have hinvne : ¬ (inv = "is_a") := fun hh => hrel (inverse_eq_isa (hh ▸ hinv))
        rw [h2, isaAdj_append_not_isa _ _ hinvne, isaAdj_append_not_isa _ _ hisa]
        exact hacy

theorem applyOps_acyclic_from (ops : List (String × String × String × String)) :
    ∀ (g : Graph), (∀ o ∈ ops, o.2.1 ≠ "has_instance") →
      Acyclic (isaAdj g.edges) →
      Acyclic (isaAdj (ops.foldl
        (fun g o => _add_relation g o.1 o.2.1 o.2.2.1 o.2.2.2) g).edges) := by
  induction ops with
  | nil => intro g _ hacy; exact hacy
  | cons o ops ih =>
    intro g hops hacy
    rw [List.foldl_cons]
    exact ih _ (fun o' ho' => hops o' (List.mem_cons_of_mem o ho'))
      (addRel_preserves_acyclic g o.1 o.2.1 o.2.2.1 o.2.2.2
        (hops o (List.mem_cons_self o ops)) hacy)

/-- C1 (amended): starting from the empty graph, for every sequence of
add-edge operations in which no operation inserts a `has_instance` edge
(whose automatic inverse is an unchecked `is_a` edge), the is-a subgraph
is acyclic after every operation; and an attempted `is_a` insertion that
the cycle detector rejects returns the graph completely unchanged. -/
theorem C1_amended (ops : List (String × String × String × String))
    (hops : ∀ o ∈ ops, o.2.1 ≠ "has_instance") :
    Acyclic (isaAdj (applyOps ops).edges) ∧
    ∀ (g : Graph) (s t f : String),
      (detect_circular_reference g.edges s t "is_a").isSome →
      _add_relation g s "is_a" t f = g := by
  constructor
  · have : isaAdj (emptyGraph.edges) = [] := rfl
    exact applyOps_acyclic_from ops emptyGraph hops (by rw [this]; exact acyclic_nil)
  · intro g s t f hsome
    unfold _add_relation
    rw [if_pos ⟨rfl, hsome⟩]

theorem C1_witness :
    Acyclic (isaAdj (applyOps [("A", "is_a", "B", "doc")]).edges) ∧
    _add_relation (applyOps [("A", "is_a", "B", "doc")]) "B" "is_a" "A" "doc" =
      applyOps [("A", "is_a", "B", "doc")] :=
  ⟨(C1_amended [("A", "is_a", "B", "doc")] (by decide)).1,
   (C1_amended [("A", "is_a", "B", "doc")] (by decide)).2
     (applyOps [("A", "is_a", "B", "doc")]) "B" "A" "doc" (by decide)⟩

/-- C1 (counterexample): inserting `(A, is_a, B)` and then
`(A, has_instance, B)` puts both `A → B` and the unchecked inverse
`B → A` into the is-a subgraph, so it is not acyclic — refuting the claim
that every operation sequence keeps the is-a subgraph cycle-free. -/
theorem C1_counterexample :
    ¬ Acyclic (isaAdj (applyOps
      [("A", "is_a", "B", "doc"), ("A", "has_instance", "B", "doc")]).edges) := by
  intro hacy
  have h1 : adjStep (isaAdj (applyOps
      [("A", "is_a", "B", "doc"), ("A", "has_instance", "B", "doc")]).edges)
      "A" "B" := by decide
  have h2 : adjStep (isaAdj (applyOps
      [("A", "is_a", "B", "doc"), ("A", "has_instance", "B", "doc")]).edges)
      "B" "A" := by decide
  exact hacy "A" (Relation.TransGen.head h1 (Relation.TransGen.single h2))

/-- C3: the cycle detector returns a cycle exactly when the is-a adjacency
built from all existing is-a edges plus the proposed edge has a cycle
reachable from the proposed source; any returned list is a genuine closed
non-trivial walk (the sub-path of the active DFS path from the repeated
node's first occurrence through its repeat) whose repeated endpoint is
reachable from the source; any relation other than `is_a` yields no cycle;
and a report is never spurious (a fully-explored node cannot trigger one,
since every report implies a real reachable cycle). -/
theorem C3_detector_correct (edges : List Edge) (source target relation : String) :
    (relation ≠ "is_a" → detect_circular_reference edges source target relation = none) ∧
    ((detect_circular_reference edges source target "is_a").isSome ↔
      HasCycleFrom (adjAdd (isaAdj edges) source target) source) ∧
    (∀ c, detect_circular_reference edges source target "is_a" = some c →
      SoundCycle (adjAdd (isaAdj edges) source target) source c) := by
  refine ⟨fun h => detect_not_isa edges source target relation h, ⟨?_, ?_⟩, ?_⟩
  · intro hsome
    rcases Option.isSome_iff_exists.mp hsome with ⟨c, hc⟩
    exact (detect_some_sound edges source target c hc).1
  · intro hcyc
    by_contra hns
    exact detect_none_no_cycle edges source target
      (Option.not_isSome_iff_eq_none.mp hns) hcyc
  · exact fun c hc => detect_some_sound edges source target c hc

theorem C3_witness :
    detect_circular_reference [] "x" "y" "part_of" = none ∧
    HasCycleFrom (adjAdd (isaAdj []) "a" "a") "a" ∧
    SoundCycle (adjAdd (isaAdj []) "a" "a") "a" ["a", "a"] :=
  ⟨(C3_detector_correct [] "x" "y" "part_of").1 (by decide),
   (C3_detector_correct [] "a" "a" "is_a").2.1.mp (by decide),
   (C3_detector_correct [] "a" "a" "is_a").2.2 ["a", "a"] (by decide)⟩

/-! ## Inverse completeness (C2) -/

theorem any_id_eq_false {l : List Edge} {k : String}
    (h : ¬ (l.any (fun e => decide (e.id = k)) = true)) : ∀ e ∈ l, e.id ≠ k := by
  intro e he
  simp only [List.any_eq_true, decide_eq_true_eq, not_exists] at h
  intro hk
  exact h e ⟨he, hk⟩

theorem any_id_eq_true {l : List Edge} {k : String}
    (h : l.any (fun e => decide (e.id = k)) = true) : ∃ e ∈ l, e.id = k := by
  simpa [List.any_eq_true, decide_eq_true_eq] using h

theorem pairwise_id_append {l : List Edge} (e : Edge)
    (hpw : l.Pairwise (fun a b => a.id ≠ b.id)) (hfresh : ∀ x ∈ l, x.id ≠ e.id) :
    (l ++ [e]).Pairwise (fun a b => a.id ≠ b.id) := by
  rw [List.pairwise_append]
  refine ⟨hpw, List.pairwise_singleton _ _, ?_⟩
  intro a ha b hb
  rcases List.mem_singleton.mp hb with rfl
  exact hfresh a ha

theorem addRel_preserves_edgesInv (g : Graph) (s rel t f : String)
    (h : EdgesInv g.edges) : EdgesInv (_add_relation g s rel t f).edges := by
  unfold _add_relation
  dsimp only
  split
  · exact h
  · split
    · exact h
    · rename_i hguard hdup
      have hfresh := any_id_eq_false (by simpa using hdup)
      unfold _add_inverse_relation
      dsimp only
      split
      · rename_i hinvnone
        constructor
        · exact pairwise_id_append _ h.1 hfresh
        · intro e he inv hinv
          rcases List.mem_append.mp he with he' | he'
          · rcases h.2 e he' inv hinv with ⟨e', he'', hid⟩
            exact ⟨e', List.mem_append_left _ he'', hid⟩
          · rcases List.mem_singleton.mp he' with rfl
            simp only at hinv
            rw [hinvnone] at hinv
            exact Option.noConfusion hinv
      · rename_i inv hinv
        split
        · rename_i hdup2
          constructor
          · exact pairwise_id_append _ h.1 hfresh
          · intro e he inv' hinv'
            rcases List.mem_append.mp he with he' | he'
            · rcases h.2 e he' inv' hinv' with ⟨e', he'', hid⟩
              exact ⟨e', List.mem_append_left _ he'', hid⟩
            · rcases List.mem_singleton.mp he' with rfl
              simp only at hinv'
              rw [hinv] at hinv'
              rcases Option.some.inj hinv' with rfl
              rcases any_id_eq_true hdup2 with ⟨e', he', hid⟩
              exact ⟨e', he', hid⟩
        · rename_i hdup2
          have hfresh2 := any_id_eq_false hdup2
          constructor
          · exact pairwise_id_append _ (pairwise_id_append _ h.1 hfresh) hfresh2
          · intro e he inv' hinv'
            rcases List.mem_append.mp he with he' | he''
            · rcases List.mem_append.mp he' with hold | hnew
              · rcases h.2 e hold inv' hinv' with ⟨e', hmem, hid⟩
                exact ⟨e', List.mem_append_left _ (List.mem_append_left _ hmem), hid⟩
              · rcases List.mem_singleton.mp hnew with rfl
                simp only at hinv'
                rw [hinv] at hinv'
                rcases Option.some.inj hinv' with rfl
                exact ⟨_, List.mem_append_right _ (List.mem_singleton.mpr rfl), rfl⟩
            · rcases List.mem_singleton.mp he'' with rfl
              simp only at hinv'
              rw [inverse_symm hinv] at hinv'
              rcases Option.some.inj hinv' with rfl
              refine ⟨⟨s ++ "--" ++ rel ++ "--" ++ t, s, rel, t, f⟩,
                List.mem_append_left _ (List.mem_append_right _
                  (List.mem_singleton.mpr rfl)), rfl⟩

theorem applyOps_edgesInv (ops : List (String × String × String × String)) :
    EdgesInv (applyOps ops).edges := by
  have hgen : ∀ (g : Graph), EdgesInv g.edges →
      EdgesInv ((ops.foldl
        (fun g o => _add_relation g o.1 o.2.1 o.2.2.1 o.2.2.2) g).edges) := by
    induction ops with
    | nil => intro g hg; exact hg
    | cons o ops ih =>
      intro g hg
      rw [List.foldl_cons]
      exact ih _ (addRel_preserves_edgesInv g o.1 o.2.1 o.2.2.1 o.2.2.2 hg)
  exact hgen emptyGraph ⟨List.Pairwise.nil, by intro e he; simp [emptyGraph] at he⟩

theorem countP_id_one {l : List Edge} (hpw : l.Pairwise (fun a b => a.id ≠ b.id))
    {e' : Edge} (he' : e' ∈ l) {k : String} (hk : e'.id = k) :
    l.countP (fun e => decide (e.id = k)) = 1 := by
  induction l with
  | nil => simp at he'
  | cons a l ih =>
    rw [List.countP_cons]
    rcases List.pairwise_cons.mp hpw with ⟨ha, hl⟩
    rcases List.mem_cons.mp he' with rfl | he''
    · have hz : l.countP (fun e => decide (e.id = k)) = 0 := by
        rw [List.countP_eq_zero]
        intro x hx
        simp only [decide_eq_true_eq]
        intro hxk
        exact ha x hx (hk.trans hxk.symm)
      simp [hz, hk]
    · have hne : ¬ (a.id = k) := fun hh => ha e' he'' (hh.trans hk.symm)
      simp [hne, ih hl he'']

/-- C2 (amended): starting from the empty graph, after any sequence of
add-edge operations, edge ids are pairwise distinct and, for every edge
`(A, r, B)` whose relation has a declared inverse, exactly one edge whose
deduplication id is `B--inverse(r)--A` is present.  (Because the id string
is the deduplication key, the edge carrying that id can be a different
triple when node names contain the `--` separator — which is what refutes
the claim at triple level; at id level the property is maintained by
construction, and repeated insertions add nothing.) -/
theorem C2_amended (ops : List (String × String × String × String)) :
    (applyOps ops).edges.Pairwise (fun a b => a.id ≠ b.id) ∧
    ∀ e ∈ (applyOps ops).edges, ∀ inv, relation_inverses e.relation = some inv →
      (applyOps ops).edges.countP
        (fun e' => decide (e'.id = e.target ++ "--" ++ inv ++ "--" ++ e.source)) = 1 := by
  rcases applyOps_edgesInv ops with ⟨hpw, hcomp⟩
  refine ⟨hpw, ?_⟩
  intro e he inv hinv
  rcases hcomp e he inv hinv with ⟨e', he', hid⟩
  exact countP_id_one hpw he' hid

theorem C2_witness :
    (applyOps [("a", "is_a", "b", "f")]).edges.countP
      (fun e' => decide (e'.id = "b" ++ "--" ++ "has_instance" ++ "--" ++ "a")) = 1 :=
  (C2_amended [("a", "is_a", "b", "f")]).2
    ⟨"a--is_a--b", "a", "is_a", "b", "f"⟩ (by decide) "has_instance" (by decide)

/-- C2 (counterexample): ids are only an encoding of triples, and the
encoding collides.  After inserting `("x", "follows--y", "z")` and then
`("y--z", "precedes", "x")`, the edge `(y--z, precedes, x)` is present and
`precedes` has declared inverse `follows`, yet no edge
`(x, follows, y--z)` exists: its id `x--follows--y--z` collided with the
unrelated first edge, so the inverse insertion was skipped as a duplicate. -/
theorem C2_counterexample :
    (⟨"y--z--precedes--x", "y--z", "precedes", "x", "f"⟩ : Edge) ∈
      (applyOps [("x", "follows--y", "z", "f"), ("y--z", "precedes", "x", "f")]).edges ∧
    relation_inverses "precedes" = some "follows" ∧
    ¬ ∃ e ∈ (applyOps [("x", "follows--y", "z", "f"),
        ("y--z", "precedes", "x", "f")]).edges,
      e.source = "x" ∧ e.relation = "follows" ∧ e.target = "y--z" := by
  decide

/-! ## Node-relations update (C9) -/

theorem addNodeRelation_absent (nodes : List (String × NodeData)) (key r t : String)
    (h : tget nodes key = none) : addNodeRelation nodes key r t = nodes := by
  unfold addNodeRelation
  rw [h]

theorem tget_addNodeRelation_other (nodes : List (String × NodeData))
    (key r t k' : String) (h : k' ≠ key) :
    tget (addNodeRelation nodes key r t) k' = tget nodes k' := by
  unfold addNodeRelation
  rcases hk : tget nodes key with _ | nd
  · rfl
  · exact tget_tset_ne nodes key k' _ h

theorem tget_addNodeRelation_none (nodes : List (String × NodeData))
    (key r t k : String) (h : tget nodes k = none) :
    tget (addNodeRelation nodes key r t) k = none := by
  by_cases hk : k = key
  · subst hk
    rw [addNodeRelation_absent nodes k r t h]
    exact h
  · rw [tget_addNodeRelation_other nodes key r t k hk]
    exact h

theorem tget_addNodeRelation_self (nodes : List (String × NodeData))
    (key r t : String) {nd : NodeData} (h : tget nodes key = some nd) :
    tget (addNodeRelation nodes key r t) key =
      some { nd with relations := relsAdd nd.relations r t } := by
  unfold addNodeRelation
  rw [h]
  exact tget_tset_self nodes key _

theorem tget_relsAdd_self (rels : List (String × List String)) (r t : String) :
    tget (relsAdd rels r t) r = some (
      match tget rels r with
      | none => [t]
      | some l => if t ∈ l then l else l ++ [t]) := by
  unfold relsAdd
  rcases h : tget rels r with _ | l
  · rw [tget_append, h]
    simp [tget]
  · by_cases hmem : t ∈ l
    · simp [hmem, h]
    · simp [hmem, tget_tset_self]

theorem tget_relsAdd_other (rels : List (String × List String)) (r t r' : String)
    (h : r' ≠ r) : tget (relsAdd rels r t) r' = tget rels r' := by
  unfold relsAdd
  rcases hr : tget rels r with _ | l
  · rw [tget_append]
    rcases h2 : tget rels r' with _ | v
    · simp only [tget]
      rw [if_neg (fun hh => h hh.symm)]
    · rfl
  · dsimp only
    by_cases hmem : t ∈ l
    · rw [if_pos hmem]
    · rw [if_neg hmem]
      exact tget_tset_ne rels r r' _ h

/-- C9 (amended): when `_add_relation` appends a new (non-duplicate,
non-cycle-rejected) edge, the source node's `relations[rel]` list gets the
target appended if it is not already there — but ONLY when the source node
already exists in the node map; when the source node is absent, no node is
created and the node map keeps no entry for it (the edge is still
appended).  The claim's "create node if absent" does not happen. -/
theorem C9_amended (g : Graph) (s rel t f : String)
    (hrej : ¬ (rel = "is_a" ∧ (detect_circular_reference g.edges s t "is_a").isSome))
    (hfresh : ∀ e ∈ g.edges, e.id ≠ s ++ "--" ++ rel ++ "--" ++ t) :
    (∀ nd, tget g.nodes s = some nd →
      ∃ nd', tget (_add_relation g s rel t f).nodes s = some nd' ∧
        tget nd'.relations rel = some (
          match tget nd.relations rel with
          | none => [t]
          | some l => if t ∈ l then l else l ++ [t])) ∧
    (tget g.nodes s = none → tget (_add_relation g s rel t f).nodes s = none) := by
  have hdup : ¬ (g.edges.any
      (fun e => decide (e.id = s ++ "--" ++ rel ++ "--" ++ t)) = true) := by
    simp only [List.any_eq_true, decide_eq_true_eq, not_exists]
    intro e ⟨he, hid⟩
    exact hfresh e he hid
  unfold _add_relation
  dsimp only
  rw [if_neg hrej, if_neg hdup]
  unfold _add_inverse_relation
  dsimp only
  have main : ∀ (nodes₂ : List (String × NodeData)),
      (nodes₂ = addNodeRelation g.nodes s rel t ∨
        ∃ inv, relation_inverses rel = some inv ∧
          nodes₂ = addNodeRelation (addNodeRelation g.nodes s rel t) t inv s) →
      (∀ nd, tget g.nodes s = some nd →
        ∃ nd', tget nodes₂ s = some nd' ∧
          tget nd'.relations rel = some (
            match tget nd.relations rel with
            | none => [t]
            | some l => if t ∈ l then l else l ++ [t])) ∧
      (tget g.nodes s = none → tget nodes₂ s = none) := by
    intro nodes₂ hn₂
    constructor
    · intro nd hnd
      have h₁ : tget (addNodeRelation g.nodes s rel t) s =
          some { nd with relations := relsAdd nd.relations rel t } :=
        tget_addNodeRelation_self g.nodes s rel t hnd
      rcases hn₂ with rfl | ⟨inv, hinv, rfl⟩
      · refine ⟨_, h₁, ?_⟩
        exact tget_relsAdd_self nd.relations rel t
      · have hinvne : inv ≠ rel := no_self_inverse hinv
        by_cases hts : t = s
        · subst hts
          have h₂ := tget_addNodeRelation_self (addNodeRelation g.nodes t rel t)
            t inv t h₁
          refine ⟨_, h₂, ?_⟩
          have hstep := tget_relsAdd_other (relsAdd nd.relations rel t) inv t rel
            (Ne.symm hinvne)
          dsimp only
          rw [hstep]
          exact tget_relsAdd_self nd.relations rel t
        · rw [tget_addNodeRelation_other _ t _ _ s (fun hh => hts hh.symm)]
          exact ⟨_, h₁, tget_relsAdd_self nd.relations rel t⟩
    · intro hnone
      have h₁ : tget (addNodeRelation g.nodes s rel t) s = none :=
        tget_addNodeRelation_none g.nodes s rel t s hnone
      rcases hn₂ with rfl | ⟨inv, hinv, rfl⟩
      · exact h₁
      · exact tget_addNodeRelation_none _ t _ s s h₁
  split
  · exact main _ (Or.inl rfl)
  · rename_i inv hinv
    split
    · exact main _ (Or.inl rfl)
    · exact main _ (Or.inr ⟨inv, hinv, rfl⟩)

/-- C9 (counterexample): on the empty graph, `_add_relation` appends a new
edge but creates no node for the absent source, refuting "create node if
absent". -/
theorem C9_counterexample :
    (_add_relation emptyGraph "a" "likes" "b" "f").edges ≠ [] ∧
    (_add_relation emptyGraph "a" "likes" "b" "f").nodes = [] := by
  decide

theorem C9_witness :
    ∃ nd', tget (_add_relation
        ⟨[("a", ⟨"a", []⟩)], []⟩ "a" "part_of" "b" "f").nodes "a" = some nd' ∧
      tget nd'.relations "part_of" = some ["b"] := by
  rcases (C9_amended ⟨[("a", ⟨"a", []⟩)], []⟩ "a" "part_of" "b" "f"
      (by decide) (by decide)).1 ⟨"a", []⟩ (by decide) with ⟨nd', h1, h2⟩
  exact ⟨nd', h1, h2⟩

/-! ## Path resolver (C4, C5, C10) -/

theorem sortedByCountDesc_head_any (key : String → Nat) (l : List String) :
    (l.foldr (insortDesc key) []).head? = firstMaxBy key l := by
  induction l with
  | nil => rfl
  | cons x xs ih =>
    rw [List.foldr_cons]
    unfold firstMaxBy
    rcases hr : xs.foldr (insortDesc key) [] with _ | ⟨y, ys⟩
    · rw [hr] at ih
      have hfm : firstMaxBy key xs = none := ih.symm
      simp only [hfm]
      rfl
    · rw [hr] at ih
      have hfm : firstMaxBy key xs = some y := by
        rw [← ih]
        rfl
      simp only [hfm]
      unfold insortDesc
      by_cases hk : key y ≤ key x
      · rw [if_pos hk, if_neg (by omega)]
        rfl
      · rw [if_neg hk, if_pos (by omega)]
        rfl

theorem sortedByCountDesc_head (l : List String) :
    (sortedByCountDesc l).head? = firstMaxBy countSlash l :=
  sortedByCountDesc_head_any countSlash l

theorem firstMaxBy_isSome (key : String → Nat) (x : String) (xs : List String) :
    ∃ p, firstMaxBy key (x :: xs) = some p := by
  unfold firstMaxBy
  rcases hf : firstMaxBy key xs with _ | m
  · exact ⟨x, by simp [hf]⟩
  · by_cases hk : key x < key m
    · exact ⟨m, by simp [hf, hk]⟩
    · exact ⟨x, by simp [hf, hk]⟩

theorem resolve_hit (tax : Taxonomy) (name : String) (parents : List String)
    (ctx : Option String) (cp : String)
    (h : tget tax.search_to_classification name = some cp) :
    resolve_reference tax name parents ctx = (⟨name, cp, [cp]⟩, tax) := by
  unfold resolve_reference
  rw [h]

/-- Full characterisation of the parent-driven branch of
`resolve_reference`. -/
theorem resolve_miss (tax : Taxonomy) (name : String) (parents : List String)
    (ctx : Option String) (h : tget tax.search_to_classification name = none)
    (hp : parents ≠ []) :
    resolve_reference tax name parents ctx =
      (⟨name, (sortedByCountDesc parents).headD "" ++ "/" ++ lastSeg name,
        parents.map (fun p => p ++ "/" ++ lastSeg name)⟩,
       { search_to_classification := tset tax.search_to_classification name
           ((sortedByCountDesc parents).headD "" ++ "/" ++ lastSeg name),
         classification_to_search := tset tax.classification_to_search
           ((sortedByCountDesc parents).headD "" ++ "/" ++ lastSeg name) name,
         aliases := if (parents.map (fun p => p ++ "/" ++ lastSeg name)).length > 1 then
             tset tax.aliases name (parents.map (fun p => p ++ "/" ++ lastSeg name)).tail
           else tax.aliases }) := by
  unfold resolve_reference
  rw [h]
  dsimp only
  rw [if_pos hp]
  by_cases hlen : (List.map (fun p => p ++ "/" ++ lastSeg name) parents).length > 1
  · rw [if_pos hlen, if_pos hlen]
  · rw [if_neg hlen, if_neg hlen]

theorem resolve_snd_no_parents (tax : Taxonomy) (name : String)
    (ctx : Option String) (h : tget tax.search_to_classification name = none) :
    (resolve_reference tax name [] ctx).2 = tax := by
  unfold resolve_reference
  rw [h]
  dsimp only
  rw [if_neg (by simp)]
  split <;> rfl

/-- C5: resolution is idempotent — a second resolution with the same
search name and declared parents yields the same classification path, and
once a search name is mapped in the taxonomy, any later resolution returns
that mapping with the taxonomy unchanged, whatever the declared parents. -/
theorem C5_resolution_idempotent (tax : Taxonomy) (name : String)
    (parents : List String) (ctx : Option String) :
    ((resolve_reference (resolve_reference tax name parents ctx).2
        name parents ctx).1.classification_path =
      (resolve_reference tax name parents ctx).1.classification_path) ∧
    ∀ cp, tget tax.search_to_classification name = some cp →
      resolve_reference tax name parents ctx = (⟨name, cp, [cp]⟩, tax) := by
  constructor
  · rcases hhit : tget tax.search_to_classification name with _ | cp
    · rcases hps : parents with _ | ⟨p, ps⟩
      · rw [resolve_snd_no_parents tax name ctx hhit]
      · rw [resolve_miss tax name (p :: ps) ctx hhit (by simp)]
        dsimp only
        rw [resolve_hit _ name (p :: ps) ctx _ (tget_tset_self _ _ _)]
    · rw [resolve_hit tax name parents ctx cp hhit,
        resolve_hit tax name parents ctx cp hhit]
  · intro cp hcp
    exact resolve_hit tax name parents ctx cp hcp

theorem C5_witness :
    ((resolve_reference (resolve_reference emptyTaxonomy "z" ["x"] none).2
        "z" ["x"] none).1.classification_path =
      (resolve_reference emptyTaxonomy "z" ["x"] none).1.classification_path) ∧
    resolve_reference ⟨[("z", "x/z")], [("x/z", "z")], []⟩ "z" ["q"] none =
      (⟨"z", "x/z", ["x/z"]⟩, ⟨[("z", "x/z")], [("x/z", "z")], []⟩) :=
  ⟨(C5_resolution_idempotent emptyTaxonomy "z" ["x"] none).1,
   (C5_resolution_idempotent ⟨[("z", "x/z")], [("x/z", "z")], []⟩ "z" ["q"] none).2
     "x/z" (by decide)⟩

/-- C4 (counterexample): with declared parents `["b", "a"]` (equal segment
count) the code's stable sort keeps list order, so the primary parent is
`"b"`, not the lexicographically smallest `"a"` demanded by the claim. -/
theorem C4_counterexample :
    (resolve_reference emptyTaxonomy "z" ["b", "a"] none).1.classification_path =
      "b/z" ∧ "b/z" ≠ "a/z" := by
  decide

/-- C4 (amended): for an unregistered name with non-empty declared
parents, the primary parent is the FIRST declared parent of maximal
segment count (ties break by list position, not lexicographically); the
classification path is that parent followed by `/` and the last segment of
the search name; and when more than one parent is declared, the recorded
alias list consists of the combined paths of every declared parent except
the first-listed one (which equals the non-primary ones exactly when the
first-listed parent is a deepest one, as in the `["x/y", "x"]` example). -/
theorem C4_amended (tax : Taxonomy) (name : String) (parents : List String)
    (ctx : Option String) (h : tget tax.search_to_classification name = none)
    (hp : parents ≠ []) :
    (∃ p, firstMaxBy countSlash parents = some p ∧
      (resolve_reference tax name parents ctx).1.classification_path =
        p ++ "/" ++ lastSeg name) ∧
    (parents.length > 1 →
      tget (resolve_reference tax name parents ctx).2.aliases name =
        some ((parents.map (fun q => q ++ "/" ++ lastSeg name)).tail)) := by
  rw [resolve_miss tax name parents ctx h hp]
  constructor
  · rcases hps : parents with _ | ⟨p, ps⟩
    · exact absurd hps hp
    · rcases firstMaxBy_isSome countSlash p ps with ⟨q, hq⟩
      refine ⟨q, hq, ?_⟩
      have hhd : (sortedByCountDesc (p :: ps)).head? = some q := by
        rw [sortedByCountDesc_head, hq]
      dsimp only
      rcases hsr : sortedByCountDesc (p :: ps) with _ | ⟨a, as⟩
      · rw [hsr] at hhd; exact absurd hhd (by simp)
      · rw [hsr] at hhd
        simp only [List.head?_cons, Option.some.injEq] at hhd
        simp [hhd]
  · intro hlen
    dsimp only
    rw [if_pos (by simpa using hlen), tget_tset_self]

theorem C4_witness :
    (∃ p, firstMaxBy countSlash ["x/y", "x"] = some p ∧
      (resolve_reference emptyTaxonomy "z" ["x/y", "x"] none).1.classification_path =
        p ++ "/" ++ lastSeg "z") ∧
    tget (resolve_reference emptyTaxonomy "z" ["x/y", "x"] none).2.aliases "z" =
      some ["x/z"] :=
  ⟨(C4_amended emptyTaxonomy "z" ["x/y", "x"] none (by decide) (by decide)).1,
   (C4_amended emptyTaxonomy "z" ["x/y", "x"] none (by decide) (by decide)).2
     (by decide)⟩

/-- C10 (counterexample): for declared parents `["x", "x/y"]` the primary
classification is `x/y/z`, but the returned all-paths list is
`["x/z", "x/y/z"]` — declared-parent order, NOT the primary followed by
the stored aliases (which are `["x/y/z"]`, the primary itself). -/
theorem C10_counterexample :
    (resolve_reference emptyTaxonomy "z" ["x", "x/y"] none).1.classification_path =
      "x/y/z" ∧
    (resolve_reference emptyTaxonomy "z" ["x", "x/y"] none).1.all_paths =
      ["x/z", "x/y/z"] ∧
    tget (resolve_reference emptyTaxonomy "z" ["x", "x/y"] none).2.aliases "z" =
      some ["x/y/z"] ∧
    (resolve_reference emptyTaxonomy "z" ["x", "x/y"] none).1.all_paths ≠
      "x/y/z" :: ["x/y/z"] := by
  decide

/-- C10 (amended): the first resolution of an unregistered multi-parent
concept returns an all-paths list containing one combined path per
declared parent, in declared order (whose tail — not necessarily the
non-primary paths — is stored as the alias list), while every later
resolution of the now-registered name returns an all-paths list containing
only the primary classification path. -/
theorem C10_amended (tax : Taxonomy) (name : String) (parents : List String)
    (ctx ctx' : Option String) (parents' : List String)
    (h : tget tax.search_to_classification name = none)
    (hp : parents.length > 1) :
    (resolve_reference tax name parents ctx).1.all_paths =
      parents.map (fun p => p ++ "/" ++ lastSeg name) ∧
    tget (resolve_reference tax name parents ctx).2.aliases name =
      some ((parents.map (fun p => p ++ "/" ++ lastSeg name)).tail) ∧
    (resolve_reference (resolve_reference tax name parents ctx).2
        name parents' ctx').1.all_paths =
      [(resolve_reference tax name parents ctx).1.classification_path] := by
  have hp' : parents ≠ [] := by
    intro hh
    rw [hh] at hp
    simp at hp
  rw [resolve_miss tax name parents ctx h hp']
  refine ⟨rfl, ?_, ?_⟩
  · dsimp only
    rw [if_pos (by simpa using hp), tget_tset_self]
  · dsimp only
    rw [resolve_hit _ name parents' ctx' _ (tget_tset_self _ _ _)]

theorem C10_witness :
    (resolve_reference emptyTaxonomy "z" ["x", "x/y"] none).1.all_paths =
      ["x", "x/y"].map (fun p => p ++ "/" ++ lastSeg "z") ∧
    tget (resolve_reference emptyTaxonomy "z" ["x", "x/y"] none).2.aliases "z" =
      some ((["x", "x/y"].map (fun p => p ++ "/" ++ lastSeg "z")).tail) ∧
    (resolve_reference (resolve_reference emptyTaxonomy "z" ["x", "x/y"] none).2
        "z" ["q"] none).1.all_paths =
      [(resolve_reference emptyTaxonomy "z" ["x", "x/y"] none).1.classification_path] :=
  C10_amended emptyTaxonomy "z" ["x", "x/y"] none none ["q"] (by decide) (by decide)

/-! ## Search index construction (C7) -/

theorem indexPartsLoop_eq_map (node_id cp : String) (depth total : Nat) :
    ∀ (parts : List String) (i : Nat),
      indexPartsLoop node_id cp depth total i parts =
        (List.range parts.length).map (fun j =>
          (pyLower (parts.getD j ""),
            ⟨node_id, cp, depth, i + j + 1, some (decide (i + j + 1 < total))⟩)) := by
  intro parts
  induction parts with
  | nil => intro i; rfl
  | cons p ps ih =>
    intro i
    show (pyLower p,
        (⟨node_id, cp, depth, i + 1, some (decide (i < total - 1))⟩ : IndexEntry)) ::
        indexPartsLoop node_id cp depth total (i + 1) ps = _
    rw [ih (i + 1), List.length_cons, List.range_succ_eq_map, List.map_cons,
      List.map_map]
    have hdec : (decide (i < total - 1)) = (decide (i + 0 + 1 < total)) := by
      apply decide_eq_decide.mpr
      omega
    congr 1
    · simp [hdec]
    · apply List.map_congr_left
      intro j hj
      have e1 : i + 1 + j + 1 = i + (j + 1) + 1 := by omega
      simp [Function.comp, e1]

theorem build_search_index_join (g : Graph) :
    build_search_index g =
      (g.nodes.map (fun p => nodeIndexEntries p.1 p.2)).flatten := by
  have hgen : ∀ (nodes : List (String × NodeData))
      (acc : List (String × IndexEntry)),
      nodes.foldl (fun acc p => acc ++ nodeIndexEntries p.1 p.2) acc =
        acc ++ (nodes.map (fun p => nodeIndexEntries p.1 p.2)).flatten := by
    intro nodes
    induction nodes with
    | nil => intro acc; simp
    | cons p ps ih =>
      intro acc
      rw [List.foldl_cons, ih, List.map_cons, List.flatten_cons, List.append_assoc]
  have := hgen g.nodes []
  simpa [build_search_index] using this

/-- C7 (counterexample): a node with classification path `a/b/c` yields
FOUR index entries — the per-prefix entries keyed `a`, `b`, `c` plus an
extra concept-name entry duplicating the key `c` — not "exactly three
entries keyed a, b, c", which would imply a single entry under key `c`. -/
theorem C7_index_counterexample :
    (build_search_index ⟨[("n", ⟨"a/b/c", []⟩)], []⟩).length = 4 ∧
    (build_search_index ⟨[("n", ⟨"a/b/c", []⟩)], []⟩).countP
      (fun e => decide (e.1 = "c")) = 2 := by
  decide

/-- C7 (amended): index construction inserts, for every node, one entry
per prefix of its classification path (keyed by the lowercased segment at
the prefix boundary, with specificity the prefix's segment count and a
partial-match marker exactly when the prefix is strictly shorter than the
full path), PLUS one additional concept-name entry keyed by the lowercased
last segment with full-path specificity and no partial-match marker; a
node with path `a/b/c` therefore yields four entries keyed `c`, `a`, `b`,
`c` with specificities 3, 1, 2, 3. -/
theorem C7_amended (g : Graph) (node_id : String) (nd : NodeData) :
    build_search_index g =
      (g.nodes.map (fun p => nodeIndexEntries p.1 p.2)).flatten ∧
    nodeIndexEntries node_id nd =
      (pyLower (lastSeg nd.classification_path),
        ⟨node_id, nd.classification_path, countSlash nd.classification_path,
          countSlash nd.classification_path + 1, none⟩) ::
      (List.range (pySplit '/' nd.classification_path).length).map (fun j =>
        (pyLower ((pySplit '/' nd.classification_path).getD j ""),
          ⟨node_id, nd.classification_path, countSlash nd.classification_path,
            j + 1,
            some (decide (j + 1 < (pySplit '/' nd.classification_path).length))⟩)) := by
  refine ⟨build_search_index_join g, ?_⟩
  show (pyLower (lastSeg nd.classification_path),
      (⟨node_id, nd.classification_path, countSlash nd.classification_path,
        countSlash nd.classification_path + 1, none⟩ : IndexEntry)) ::
    indexPartsLoop node_id nd.classification_path
      (countSlash nd.classification_path)
      (pySplit '/' nd.classification_path).length 0
      (pySplit '/' nd.classification_path) = _
  rw [indexPartsLoop_eq_map]
  congr 1
  apply List.map_congr_left
  intro j hj
  have e1 : 0 + j + 1 = j + 1 := by omega
  simp [e1]

/-! ## Ancestor hierarchy (C8) -/

theorem hierLoop_prefix (nodes : List (String × NodeData)) :
    ∀ (fuel : Nat) (current : String) (hierarchy visited : List String),
      ∃ ext, hierLoop nodes fuel current hierarchy visited = hierarchy ++ ext := by
  intro fuel
  induction fuel with
  | zero => intro current hierarchy visited; exact ⟨[], by simp [hierLoop]⟩
  | succ fuel ih =>
    intro current hierarchy visited
    unfold hierLoop
    by_cases hcur : current = ""
    · exact ⟨[], by simp [hcur]⟩
    · rw [if_neg hcur]
      split
      · exact ⟨[], by simp⟩
      · split
        · exact ⟨[], by simp⟩
        · exact ⟨[], by simp⟩
        · rename_i target tail heqrel
          dsimp only
          generalize (match tget nodes target with
            | some tnd => tnd.classification_path
            | none => target) = c
          split
          · exact ih target hierarchy visited
          · rcases ih target (hierarchy ++ [c]) (c :: visited) with ⟨ext, hext⟩
            rw [hext, List.append_assoc]
            exact ⟨_, rfl⟩

theorem hierLoop_length (nodes : List (String × NodeData)) :
    ∀ (fuel : Nat) (current : String) (hierarchy visited : List String),
      (hierLoop nodes fuel current hierarchy visited).length ≤
        hierarchy.length + fuel := by
  intro fuel
  induction fuel with
  | zero => intro current hierarchy visited; simp [hierLoop]
  | succ fuel ih =>
    intro current hierarchy visited
    unfold hierLoop
    by_cases hcur : current = ""
    · simp [hcur]
    · rw [if_neg hcur]
      split
      · simp
      · split
        · simp
        · simp
        · rename_i target tail heqrel
          dsimp only
          generalize (match tget nodes target with
            | some tnd => tnd.classification_path
            | none => target) = c
          split
          · have := ih target hierarchy visited
            omega
          · have := ih target (hierarchy ++ [c]) (c :: visited)
            rw [List.length_append, List.length_singleton] at this
            omega

theorem hierLoop_nodup (nodes : List (String × NodeData)) :
    ∀ (fuel : Nat) (current : String) (hierarchy visited : List String),
      hierarchy.Nodup → (∀ x ∈ hierarchy, x ∈ visited) →
      (hierLoop nodes fuel current hierarchy visited).Nodup := by
  intro fuel
  induction fuel with
  | zero => intro current hierarchy visited hnd _; simpa [hierLoop] using hnd
  | succ fuel ih =>
    intro current hierarchy visited hnd hsub
    unfold hierLoop
    by_cases hcur : current = ""
    · simpa [hcur] using hnd
    · rw [if_neg hcur]
      split
      · exact hnd
      · split
        · exact hnd
        · exact hnd
        · rename_i target tail heqrel
          dsimp only
          generalize (match tget nodes target with
            | some tnd => tnd.classification_path
            | none => target) = c
          split
          · exact ih target hierarchy visited hnd hsub
          · rename_i hnotvis
            apply ih
            · rw [List.nodup_append]
              refine ⟨hnd, List.nodup_singleton _, ?_⟩
              intro a ha hb
              rcases List.mem_singleton.mp hb with rfl
              exact hnotvis (hsub _ ha)
            · intro x hx
              rcases List.mem_append.mp hx with hx' | hx'
              · exact List.mem_cons_of_mem _ (hsub x hx')
              · rcases List.mem_singleton.mp hx' with rfl
                exact List.mem_cons_self _ _

/-- C8 (counterexample): traversal does NOT stop at an already-visited
classification path — it only skips the duplicate entry and keeps walking.
Querying `cx` on a chain whose second and third nodes share the path `pa`
yields `[cx, pa, pc]`, while the claimed stop-at-visited behaviour
(`hierLoopStopAtVisited`, modelled from the claim's words) would end the
traversal at the repeat and yield `[cx, pa]`. -/
theorem C8_visited_counterexample :
    (get_parent_hierarchy ⟨[("x", ⟨"cx", [("is_a", ["a"])]⟩),
        ("a", ⟨"pa", [("is_a", ["b"])]⟩), ("b", ⟨"pa", [("is_a", ["c"])]⟩),
        ("c", ⟨"pc", []⟩)], []⟩ [] "cx").1 = ["cx", "pa", "pc"] ∧
    hierLoopStopAtVisited [("x", ⟨"cx", [("is_a", ["a"])]⟩),
        ("a", ⟨"pa", [("is_a", ["b"])]⟩), ("b", ⟨"pa", [("is_a", ["c"])]⟩),
        ("c", ⟨"pc", []⟩)] 10 "x" ["cx"] ["cx"] = ["cx", "pa"] ∧
    (["cx", "pa", "pc"] : List String) ≠ ["cx", "pa"] := by
  decide

/-- C8 (amended): for an uncached query whose classification path belongs
to some node with a non-empty (truthy) id — a found node with an empty
id string takes the lexical fallback, exactly as when no node matches —
the ancestor hierarchy is the queried path followed by at most 10
ancestor entries (the fixed hop cap; the walk also ends earlier at a
root), all entries pairwise distinct — an already-visited path is never
appended again, but it does not stop the traversal.  The traversal is a
total function of its inputs, so it terminates on every input. -/
theorem C8_amended (g : Graph) (cache : List (String × List String))
    (cp : String) (hc : tget cache cp = none)
    (hnode : (findNodeByCp g.nodes cp).getD "" ≠ "") :
    ∃ rest, (get_parent_hierarchy g cache cp).1 = cp :: rest ∧
      rest.length ≤ 10 ∧ (cp :: rest).Nodup := by
  unfold get_parent_hierarchy
  rw [hc]
  dsimp only
  rcases hfind : findNodeByCp g.nodes cp with _ | sp
  · rw [hfind] at hnode; simp at hnode
  · rw [hfind] at hnode
    rw [Option.getD_some] at hnode
    dsimp only
    rw [if_neg hnode]
    rcases hierLoop_prefix g.nodes 10 sp [cp] [cp] with ⟨ext, hext⟩
    refine ⟨ext, by rw [hext]; rfl, ?_, ?_⟩
    · have := hierLoop_length g.nodes 10 sp [cp] [cp]
      rw [hext] at this
      simpa using this
    · have := hierLoop_nodup g.nodes 10 sp [cp] [cp]
        (List.nodup_singleton cp) (by simp)
      rw [hext] at this
      simpa using this

theorem C8_witness :
    ∃ rest, (get_parent_hierarchy ⟨[("n1", ⟨"c1", [("is_a", ["n2"])]⟩),
        ("n2", ⟨"c2", [("is_a", ["n3"])]⟩), ("n3", ⟨"c3", [("is_a", ["n4"])]⟩),
        ("n4", ⟨"c4", [("is_a", ["n5"])]⟩), ("n5", ⟨"c5", [("is_a", ["n6"])]⟩),
        ("n6", ⟨"c6", [("is_a", ["n7"])]⟩), ("n7", ⟨"c7", [("is_a", ["n8"])]⟩),
        ("n8", ⟨"c8", [("is_a", ["n9"])]⟩), ("n9", ⟨"c9", [("is_a", ["n10"])]⟩),
        ("n10", ⟨"c10", [("is_a", ["n11"])]⟩), ("n11", ⟨"c11", [("is_a", ["n12"])]⟩),
        ("n12", ⟨"c12", []⟩)], []⟩ [] "c1").1 = "c1" :: rest ∧
      rest.length ≤ 10 ∧ ("c1" :: rest).Nodup :=
  C8_amended ⟨[("n1", ⟨"c1", [("is_a", ["n2"])]⟩),
      ("n2", ⟨"c2", [("is_a", ["n3"])]⟩), ("n3", ⟨"c3", [("is_a", ["n4"])]⟩),
      ("n4", ⟨"c4", [("is_a", ["n5"])]⟩), ("n5", ⟨"c5", [("is_a", ["n6"])]⟩),
      ("n6", ⟨"c6", [("is_a", ["n7"])]⟩), ("n7", ⟨"c7", [("is_a", ["n8"])]⟩),
      ("n8", ⟨"c8", [("is_a", ["n9"])]⟩), ("n9", ⟨"c9", [("is_a", ["n10"])]⟩),
      ("n10", ⟨"c10", [("is_a", ["n11"])]⟩), ("n11", ⟨"c11", [("is_a", ["n12"])]⟩),
      ("n12", ⟨"c12", []⟩)], []⟩ [] "c1" (by decide) (by decide)

/-! ## Search (C6) -/

theorem segMatches_comm (a b : String) :
    segMatches (pyLower a) b = segMatches (pyLower b) a := by
  unfold segMatches
  exact Bool.or_comm _ _

theorem segMatches_self (s : String) : segMatches (pyLower s) s = true := by
  unfold segMatches pyIn
  rw [decide_eq_true (List.infix_refl (pyLower s).data)]
  rfl

theorem firstMatchIdx_cons_true {q p : String} (ps : List String)
    (h : segMatches q p = true) : firstMatchIdx q (p :: ps) = some 0 := by
  simp [firstMatchIdx, h]

theorem firstMatchIdx_cons_false {q p : String} (ps : List String)
    (h : segMatches q p = false) :
    firstMatchIdx q (p :: ps) = (firstMatchIdx q ps).map (· + 1) := by
  simp [firstMatchIdx, h]

theorem firstMatchIdx_lt {q : String} :
    ∀ {ps : List String} {i : Nat}, firstMatchIdx q ps = some i → i < ps.length := by
  intro ps
  induction ps with
  | nil => intro i h; simp [firstMatchIdx] at h
  | cons p ps ih =>
    intro i h
    by_cases hm : segMatches q p = true
    · rw [firstMatchIdx_cons_true ps hm] at h
      rcases Option.some.inj h with rfl
      simp
    · rw [firstMatchIdx_cons_false ps (by simpa using hm)] at h
      rcases hf : firstMatchIdx q ps with _ | j
      · rw [hf] at h; simp at h
      · rw [hf] at h
        simp only [Option.map_some'] at h
        rcases Option.some.inj h with rfl
        have := ih hf
        simp only [List.length_cons]
        omega

theorem pyJoin_one (a : String) : pyJoin '/' [a] = a := by
  apply String.ext
  rfl

theorem pyJoin_two (a b : String) : pyJoin '/' [a, b] = a ++ "/" ++ b := by
  apply String.ext
  show a.data ++ '/' :: b.data = (a ++ "/" ++ b).data
  rw [String.data_append, String.data_append]
  have hsep : "/".data = ['/'] := rfl
  rw [hsep]
  simp

theorem pyJoin_three (a b c : String) :
    pyJoin '/' [a, b, c] = a ++ "/" ++ b ++ "/" ++ c := by
  apply String.ext
  show a.data ++ '/' :: (b.data ++ '/' :: c.data) =
    (a ++ "/" ++ b ++ "/" ++ c).data
  rw [String.data_append, String.data_append, String.data_append]
  have hsep : "/".data = ['/'] := rfl
  rw [hsep]
  simp

theorem pySplit_three {a b c : String} (ha : slashFree a) (hb : slashFree b)
    (hc : slashFree c) :
    pySplit '/' (a ++ "/" ++ b ++ "/" ++ c) = [a, b, c] := by
  rw [← pyJoin_three]
  apply pySplit_pyJoin
  · simp
  · intro p hp
    rcases List.mem_cons.mp hp with rfl | hp'
    · exact ha
    · rcases List.mem_cons.mp hp' with rfl | hp''
      · exact hb
      · rcases List.mem_singleton.mp hp'' with rfl
        exact hc

theorem mem_insortResult {x y : SearchResult} :
    ∀ {l : List SearchResult}, x ∈ insortResult y l ↔ x = y ∨ x ∈ l := by
  intro l
  induction l with
  | nil => simp [insortResult]
  | cons z zs ih =>
    unfold insortResult
    by_cases hk : resultKeyLE y z = true
    · rw [if_pos hk]
      simp
    · rw [if_neg hk]
      simp only [List.mem_cons, ih]
      tauto

theorem mem_sortResults {x : SearchResult} :
    ∀ {l : List SearchResult}, x ∈ sortResults l ↔ x ∈ l := by
  intro l
  induction l with
  | nil => simp [sortResults]
  | cons y ys ih =>
    show x ∈ insortResult y (sortResults ys) ↔ _
    rw [mem_insortResult]
    simp [ih]

theorem searchMatchIdx_lt {q id cp : String} {i : Nat}
    (h : searchMatchIdx q id cp = some i) : i < (pySplit '/' cp).length := by
  rcases hf : firstMatchIdx q (pySplit '/' cp) with _ | j
  · simp only [searchMatchIdx, hf] at h
    by_cases ha : ((pySplit '/' id).any fun p => segMatches q p) = true
    · rw [if_pos ha] at h
      rcases Option.some.inj h with rfl
      have hne := pySplit_ne_nil '/' cp
      have hlen : (pySplit '/' cp).length ≠ 0 := by
        intro hz
        exact hne (List.length_eq_zero.mp hz)
      omega
    · rw [if_neg ha] at h
      exact Option.noConfusion h
  · simp only [searchMatchIdx, hf] at h
    rcases Option.some.inj h with rfl
    exact firstMatchIdx_lt hf

theorem searchMatchIdx_of_firstMatch {q id cp : String} {i : Nat}
    (h : firstMatchIdx q (pySplit '/' cp) = some i) :
    searchMatchIdx q id cp = some i := by
  simp only [searchMatchIdx, h]

theorem resultOK_spec {r : SearchResult} (hok : ResultOK r) {ss : List String}
    (hss : ss ≠ []) (hfree : ∀ p ∈ ss, slashFree p)
    (hcls : r.classification_path = pyJoin '/' ss) :
    r.specificity = ss.length := by
  rcases hok with ⟨ps, hne, hf, hcl, hsp⟩
  have hjoin : pyJoin '/' ps = pyJoin '/' ss := by rw [← hcl, hcls]
  have hps : ps = ss := by
    have e1 : pySplit '/' (pyJoin '/' ps) = ps := pySplit_pyJoin ps hne hf
    have e2 : pySplit '/' (pyJoin '/' ss) = ss := pySplit_pyJoin ss hss hfree
    rw [← e1, ← e2, hjoin]
  rw [hsp, hps]

theorem searchLoop_facts (qLower : String) :
    ∀ (nodes : List (String × NodeData)) (results : List SearchResult)
      (seen : List String),
      (∀ r ∈ results, ResultOK r ∧ MatchConsistent qLower r) →
      (∀ p ∈ seen, ∃ r ∈ results, r.classification_path = p) →
      (∀ r ∈ results, r ∈ searchLoop qLower nodes results seen) ∧
      (∀ r ∈ searchLoop qLower nodes results seen,
        ResultOK r ∧ MatchConsistent qLower r) ∧
      (∀ (nid : String) (nnd : NodeData), (nid, nnd) ∈ nodes →
        ∀ i, searchMatchIdx qLower nid nnd.classification_path = some i →
          ∃ r ∈ searchLoop qLower nodes results seen,
            r.classification_path =
              pyJoin '/' ((pySplit '/' nnd.classification_path).take (i + 1))) := by
  intro nodes
  induction nodes with
  | nil =>
    intro results seen hres hseen
    refine ⟨fun r hr => hr, hres, ?_⟩
    intro nid nnd hmem
    exact absurd hmem (List.not_mem_nil _)
  | cons hd rest ih =>
    rcases hd with ⟨node_id, nd⟩
    intro results seen hres hseen
    rcases hm : searchMatchIdx qLower node_id nd.classification_path with _ | i
    · have hstep : searchLoop qLower ((node_id, nd) :: rest) results seen =
          searchLoop qLower rest results seen := by
        simp only [searchLoop, hm]
      obtain ⟨ih1, ih2, ih3⟩ := ih results seen hres hseen
      refine ⟨?_, ?_, ?_⟩
      · intro r hr
        rw [hstep]
        exact ih1 r hr
      · intro r hr
        rw [hstep] at hr
        exact ih2 r hr
      · intro nid nnd hmem j hj
        rw [hstep]
        rcases List.mem_cons.mp hmem with heq | htail
        · injection heq with he1 he2
          subst he1
          subst he2
          rw [hm] at hj
          exact Option.noConfusion hj
        · exact ih3 nid nnd htail j hj
    · have hstep : searchLoop qLower ((node_id, nd) :: rest) results seen =
          if pyJoin '/' ((pySplit '/' nd.classification_path).take (i + 1)) ∈ seen then
            searchLoop qLower rest results seen
          else
            searchLoop qLower rest
              (results ++ [⟨node_id,
                pyJoin '/' ((pySplit '/' nd.classification_path).take (i + 1)),
                nd.classification_path, i, i + 1,
                (pySplit '/' nd.classification_path).getD i ""⟩])
              (pyJoin '/' ((pySplit '/' nd.classification_path).take (i + 1)) :: seen) := by
        simp only [searchLoop, hm]
      by_cases hsn :
          pyJoin '/' ((pySplit '/' nd.classification_path).take (i + 1)) ∈ seen
      · rw [if_pos hsn] at hstep
        obtain ⟨ih1, ih2, ih3⟩ := ih results seen hres hseen
        refine ⟨?_, ?_, ?_⟩
        · intro r hr
          rw [hstep]
          exact ih1 r hr
        · intro r hr
          rw [hstep] at hr
          exact ih2 r hr
        · intro nid nnd hmem j hj
          rw [hstep]
          rcases List.mem_cons.mp hmem with heq | htail
          · injection heq with he1 he2
            subst he1
            subst he2
            rw [hm] at hj
            rcases Option.some.inj hj with rfl
            rcases hseen _ hsn with ⟨r, hr, hcl⟩
            exact ⟨r, ih1 r hr, hcl⟩
          · exact ih3 nid nnd htail j hj
      · rw [if_neg hsn] at hstep
        have hok : ResultOK (⟨node_id,
            pyJoin '/' ((pySplit '/' nd.classification_path).take (i + 1)),
            nd.classification_path, i, i + 1,
            (pySplit '/' nd.classification_path).getD i ""⟩ : SearchResult) := by
          refine ⟨(pySplit '/' nd.classification_path).take (i + 1), ?_, ?_, rfl, ?_⟩
          · rcases List.exists_cons_of_ne_nil
              (pySplit_ne_nil '/' nd.classification_path) with ⟨p, ps', hps⟩
            rw [hps]
            simp
          · intro p hp
            exact pySplit_sepFree nd.classification_path p (List.take_subset _ _ hp)
          · have hlt := searchMatchIdx_lt hm
            show i + 1 = _
            rw [List.length_take]
            omega
        have hmc : MatchConsistent qLower (⟨node_id,
            pyJoin '/' ((pySplit '/' nd.classification_path).take (i + 1)),
            nd.classification_path, i, i + 1,
            (pySplit '/' nd.classification_path).getD i ""⟩ : SearchResult) := by
          intro j hj
          have hm2 : searchMatchIdx qLower node_id nd.classification_path = some j :=
            searchMatchIdx_of_firstMatch hj
          rw [hm] at hm2
          rcases Option.some.inj hm2 with rfl
          exact ⟨rfl, rfl⟩
        have hres' : ∀ r ∈ results ++ [⟨node_id,
            pyJoin '/' ((pySplit '/' nd.classification_path).take (i + 1)),
            nd.classification_path, i, i + 1,
            (pySplit '/' nd.classification_path).getD i ""⟩],
            ResultOK r ∧ MatchConsistent qLower r := by
          intro r hr
          rcases List.mem_append.mp hr with h | h
          · exact hres r h
          · rcases List.mem_singleton.mp h with rfl
            exact ⟨hok, hmc⟩
        have hseen' : ∀ p ∈ pyJoin '/'
            ((pySplit '/' nd.classification_path).take (i + 1)) :: seen,
            ∃ r ∈ results ++ [⟨node_id,
              pyJoin '/' ((pySplit '/' nd.classification_path).take (i + 1)),
              nd.classification_path, i, i + 1,
              (pySplit '/' nd.classification_path).getD i ""⟩],
              r.classification_path = p := by
          intro p hp
          rcases List.mem_cons.mp hp with rfl | hp'
          · exact ⟨_, List.mem_append_right _ (List.mem_singleton.mpr rfl), rfl⟩
          · rcases hseen p hp' with ⟨r, hr, hcl⟩
            exact ⟨r, List.mem_append_left _ hr, hcl⟩
        obtain ⟨ih1, ih2, ih3⟩ := ih _ _ hres' hseen'
        refine ⟨?_, ?_, ?_⟩
        · intro r hr
          rw [hstep]
          exact ih1 r (List.mem_append_left _ hr)
        · intro r hr
          rw [hstep] at hr
          exact ih2 r hr
        · intro nid nnd hmem j hj
          rw [hstep]
          rcases List.mem_cons.mp hmem with heq | htail
          · injection heq with he1 he2
            subst he1
            subst he2
            rw [hm] at hj
            rcases Option.some.inj hj with rfl
            exact ⟨_, ih1 _ (List.mem_append_right _ (List.mem_singleton.mpr rfl)), rfl⟩
          · exact ih3 nid nnd htail j hj

/-- C6: for a graph containing a node classified `s1/s2/s3` whose segments
are separator-free and pairwise non-matching (neither contains the other,
case-insensitively), searching `s2` returns a result truncated to
`s1/s2` with specificity 2, searching `s3` returns the full path with
specificity 3, and searching `s1` returns `s1` with specificity 1;
moreover every result of every search is truncated exactly at the first
matching segment of its node's classification path, never at a more
specific prefix. -/
theorem C6_search_truncation (g : Graph) (node_id : String) (nd : NodeData)
    (s1 s2 s3 : String)
    (h1 : slashFree s1) (h2 : slashFree s2) (h3 : slashFree s3)
    (hmem : (node_id, nd) ∈ g.nodes)
    (hcp : nd.classification_path = s1 ++ "/" ++ s2 ++ "/" ++ s3)
    (m12 : segMatches (pyLower s1) s2 = false)
    (m13 : segMatches (pyLower s1) s3 = false)
    (m23 : segMatches (pyLower s2) s3 = false) :
    (∃ r ∈ search g s2,
      r.classification_path = s1 ++ "/" ++ s2 ∧ r.specificity = 2) ∧
    (∃ r ∈ search g s3,
      r.classification_path = s1 ++ "/" ++ s2 ++ "/" ++ s3 ∧ r.specificity = 3) ∧
    (∃ r ∈ search g s1,
      r.classification_path = s1 ∧ r.specificity = 1) ∧
    (∀ query : String, ∀ r ∈ search g query, ∀ i,
      firstMatchIdx (pyLower query) (pySplit '/' r.full_classification_path) =
        some i →
      r.classification_path =
        pyJoin '/' ((pySplit '/' r.full_classification_path).take (i + 1)) ∧
      r.specificity = i + 1) := by
  have hsplit : pySplit '/' nd.classification_path = [s1, s2, s3] := by
    rw [hcp]
    exact pySplit_three h1 h2 h3
  have hfacts : ∀ q : String,
      (∀ r ∈ searchLoop q g.nodes [] [], ResultOK r ∧ MatchConsistent q r) ∧
      (∀ (nid : String) (nnd : NodeData), (nid, nnd) ∈ g.nodes →
        ∀ i, searchMatchIdx q nid nnd.classification_path = some i →
          ∃ r ∈ searchLoop q g.nodes [] [],
            r.classification_path =
              pyJoin '/' ((pySplit '/' nnd.classification_path).take (i + 1))) := by
    intro q
    obtain ⟨-, hb, hc⟩ := searchLoop_facts q g.nodes [] []
      (fun r hr => absurd hr (List.not_mem_nil _))
      (fun p hp => absurd hp (List.not_mem_nil _))
    exact ⟨hb, hc⟩
  have main : ∀ (q : String) (i : Nat),
      firstMatchIdx (pyLower q) [s1, s2, s3] = some i →
      ∃ r ∈ search g q,
        r.classification_path = pyJoin '/' ([s1, s2, s3].take (i + 1)) ∧
        r.specificity = ([s1, s2, s3].take (i + 1)).length := by
    intro q i hfi
    obtain ⟨hOK, hEx⟩ := hfacts (pyLower q)
    have hmi : searchMatchIdx (pyLower q) node_id nd.classification_path = some i := by
      apply searchMatchIdx_of_firstMatch
      rw [hsplit]
      exact hfi
    rcases hEx node_id nd hmem i hmi with ⟨r, hr, hcl⟩
    rw [hsplit] at hcl
    refine ⟨r, mem_sortResults.mpr hr, hcl, ?_⟩
    refine resultOK_spec (hOK r hr).1 ?_ ?_ hcl
    · cases i <;> simp
    · intro p hp
      have hp' := List.take_subset _ _ hp
      rcases List.mem_cons.mp hp' with rfl | hp''
      · exact h1
      · rcases List.mem_cons.mp hp'' with rfl | hp'''
        · exact h2
        · rcases List.mem_singleton.mp hp''' with rfl
          exact h3
  refine ⟨?_, ?_, ?_, ?_⟩
  · have hf2 : firstMatchIdx (pyLower s2) [s1, s2, s3] = some 1 := by
      rw [firstMatchIdx_cons_false _ (by rw [segMatches_comm]; exact m12),
        firstMatchIdx_cons_true _ (segMatches_self s2)]
      rfl
    rcases main s2 1 hf2 with ⟨r, hr, hcl, hsp⟩
    refine ⟨r, hr, ?_, ?_⟩
    · rw [hcl]
      exact pyJoin_two s1 s2
    · rw [hsp]
      rfl
  · have hf3 : firstMatchIdx (pyLower s3) [s1, s2, s3] = some 2 := by
      rw [firstMatchIdx_cons_false _ (by rw [segMatches_comm]; exact m13),
        firstMatchIdx_cons_false _ (by rw [segMatches_comm]; exact m23),
        firstMatchIdx_cons_true _ (segMatches_self s3)]
      rfl
    rcases main s3 2 hf3 with ⟨r, hr, hcl, hsp⟩
    refine ⟨r, hr, ?_, ?_⟩
    · rw [hcl]
      exact pyJoin_three s1 s2 s3
    · rw [hsp]
      rfl
  · have hf1 : firstMatchIdx (pyLower s1) [s1, s2, s3] = some 0 :=
      firstMatchIdx_cons_true _ (segMatches_self s1)
    rcases main s1 0 hf1 with ⟨r, hr, hcl, hsp⟩
    refine ⟨r, hr, ?_, ?_⟩
    · rw [hcl]
      exact pyJoin_one s1
    · rw [hsp]
      rfl
  · intro query r hr i hfi
    obtain ⟨hOK, -⟩ := hfacts (pyLower query)
    have hr' : r ∈ searchLoop (pyLower query) g.nodes [] [] :=
      mem_sortResults.mp hr
    exact (hOK r hr').2 i hfi

theorem C6_witness :
    (∃ r ∈ search ⟨[("x", ⟨"a/b/c", []⟩)], []⟩ "b",
      r.classification_path = "a" ++ "/" ++ "b" ∧ r.specificity = 2) ∧
    (∃ r ∈ search ⟨[("x", ⟨"a/b/c", []⟩)], []⟩ "c",
      r.classification_path = "a" ++ "/" ++ "b" ++ "/" ++ "c" ∧
        r.specificity = 3) ∧
    (∃ r ∈ search ⟨[("x", ⟨"a/b/c", []⟩)], []⟩ "a",
      r.classification_path = "a" ∧ r.specificity = 1) ∧
    (∀ query : String,
      ∀ r ∈ search ⟨[("x", ⟨"a/b/c", []⟩)], []⟩ query, ∀ i,
      firstMatchIdx (pyLower query) (pySplit '/' r.full_classification_path) =
        some i →
      r.classification_path =
        pyJoin '/' ((pySplit '/' r.full_classification_path).take (i + 1)) ∧
      r.specificity = i + 1) :=
  C6_search_truncation ⟨[("x", ⟨"a/b/c", []⟩)], []⟩ "x" ⟨"a/b/c", []⟩ "a" "b" "c"
    (by decide) (by decide) (by decide) (by decide) (by decide)
    (by decide) (by decide) (by decide)

end SemWiki
